import Mathlib

/-!
npmignore: merge of `.npmignore` and `.gitignore` contents.

A shallow embedding of `src/index.js` and the properties of its specification.

JavaScript strings are modelled as lists of characters (`Str`); the values that
reach `diff` and `format` are modelled by `JsVal`; a thrown exception is the
`error` case of `Except JsError`.
-/

namespace Npmignore

/-- A JavaScript string. -/
abbrev Str := List Char

/-- One line of an ignore file: a string, compared by exact equality. -/
abbrev Line := List Char

/-- The exceptions the program can raise: the `Error` thrown by `extract`
(index.js:75) and the `TypeError` the runtime raises on a property access on
`undefined`/`null` or on a call of something that is not a function. -/
inductive JsError where
  | invalidInput (message : Str)
  | typeError
  deriving DecidableEq, Repr

/-- The first argument of `npmignore` and of `extract`. -/
inductive NpmArg where
  | str (s : Str)
  | null
  | undefined
  deriving DecidableEq, Repr

/-- A value that is either one string or an array of strings (`options.ignore`,
`options.unignore`, `git.ignore`). -/
inductive LineOrLines where
  | line (s : Str)
  | lines (l : List Line)
  deriving DecidableEq, Repr

/-- The `options` object: an absent property is `none`; `keepdest` is the
truthiness of `options.keepdest`. -/
structure Options where
  ignore : Option LineOrLines := none
  unignore : Option LineOrLines := none
  keepdest : Bool := false
  deriving DecidableEq, Repr

/-- The second argument of `npmignore`: a string, an object with the own
properties `ignore` and `attributes`, an array of lines, an options object
passed in second position, or nothing (`undefined`/`null`). -/
inductive GitArg where
  | str (s : Str)
  | structured (ignore : LineOrLines) (attributes : Str)
  | lines (l : List Line)
  | config (o : Options)
  | absent
  deriving DecidableEq, Repr

/-- The values held by the variables `git` and `npm` once the arguments are
normalised: `null`/`undefined`, an array of lines, a string, or a plain object
that is neither. -/
inductive JsVal where
  | nullish
  | lines (l : List Line)
  | text (s : Str)
  | object
  deriving DecidableEq, Repr

/-! ## Constants (index.js:8-12) -/

/-- First element of the `comment` array literal (index.js:9). -/
def commentLine1 : Line :=
  "# npmignore - content above this line is automatically generated and modifications may be omitted".toList

/-- Second element of the `comment` array literal (index.js:10). -/
def commentLine2 : Line :=
  "# see npmjs.com/npmignore for more details.".toList

/-- The string `comment`: the two elements joined by a newline (index.js:8-11). -/
def comment : Str :=
  commentLine1 ++ '\n' :: commentLine2

/-- The character class `\s` of JavaScript regular expressions. -/
def isSpace (c : Char) : Bool :=
  let n := c.toNat
  (9 ≤ n && n ≤ 13) || n == 32 || n == 160 || n == 5760 || (8192 ≤ n && n ≤ 8202)
    || n == 8232 || n == 8233 || n == 8239 || n == 8287 || n == 12288 || n == 65279

/-- The characters that `.` does not match in a JavaScript regular expression. -/
def isLineTerminator (c : Char) : Bool :=
  let n := c.toNat
  n == 10 || n == 13 || n == 8232 || n == 8233

/-- The expression `#\s*npmignore` matched at the start of `s`: a `#`, the
whitespace that follows it, then the literal. -/
def reMatchAt : Str → Bool
  | [] => false
  | c :: rest => c == '#' && "npmignore".toList.isPrefixOf (rest.dropWhile isSpace)

/-- Model of `re.test(line)` with `re = /#\s*npmignore/` (index.js:12): the
expression is not anchored, so it is tried at every position. -/
def reTest : Str → Bool
  | [] => false
  | c :: cs => reMatchAt (c :: cs) || reTest cs

/-! ## `split` (index.js:145-149) -/

/-- Model of `String.prototype.split` with the separator `'\n'`. -/
def splitNewline : Str → List Line
  | [] => [[]]
  | c :: cs =>
    if c = '\n' then [] :: splitNewline cs
    else
      match splitNewline cs with
      | [] => [[c]]
      | l :: ls => (c :: l) :: ls

/-- Model of `split(str)`: the empty string is replaced by two newlines, the
carriage returns are removed, the result is split at the newlines. -/
def split (str : Str) : List Line :=
  splitNewline ((if str = [] then ['\n', '\n'] else str).filter (fun c => c ≠ '\r'))

/-! ## `extract` (index.js:73-99) -/

/-- The `while` loop of `extract` (index.js:85-96) over the lines still to
read, with the state `npmignored`, `git`, `npm`. -/
def extractLoop : List Line → Bool → List Line → List Line → List Line × List Line
  | [], _, git, npm => (git, npm)
  | line :: rest, npmignored, git, npm =>
    let npmignored := if !npmignored && reTest line then true else npmignored
    if npmignored then extractLoop rest npmignored git (npm ++ [line])
    else extractLoop rest npmignored (git ++ [line]) npm

/-- Model of `extract(npmignore, options)`; `npmignored` is the truthiness of
`options.npmignored`. The array `git` of the loop is dropped, `npm` is returned. -/
def extract (npmignore : NpmArg) (npmignored : Bool) : Except JsError (List Line) :=
  match npmignore with
  | .null => .error (.invalidInput "npmignore expects a string.".toList)
  | .undefined => .error (.invalidInput "npmignore expects a string.".toList)
  | .str s => .ok (extractLoop (split s) npmignored [] []).2

/-! ## `format` (index.js:117-134) -/

/-- Model of `Array.prototype.join` with the separator `'\n'`. -/
def joinNewline : List Line → Str
  | [] => []
  | [l] => l
  | l :: l2 :: ls => l ++ '\n' :: joinNewline (l2 :: ls)

/-- What `format` appends for one of its arguments: an array is joined, a
string is taken as it is, a plain object is converted to a string by `+=`, and
a falsy value (`null`, `undefined`, the empty string) appends nothing. -/
def zoneText : JsVal → Str
  | .nullish => []
  | .lines l => joinNewline l
  | .text s => s
  | .object => "[object Object]".toList

/-- Model of `Array.isArray(x) ? x.join('\n') : x` (index.js:118-119). -/
def joinIfArray : JsVal → JsVal
  | .lines l => .text (joinNewline l)
  | v => v

/-- Truthiness of a value in `if (git)` and `if (npm)` (index.js:123, 129). -/
def isTruthy : JsVal → Bool
  | .nullish => false
  | .lines _ => true
  | .text s => !s.isEmpty
  | .object => true

/-- Model of `format(git, npm)`. -/
def format (git npm : JsVal) : Str :=
  let git := joinIfArray git
  let npm := joinIfArray npm
  let res : Str := []
  let res := if isTruthy git then res ++ zoneText git else res
  let res := res ++ ('\n' :: '\n' :: comment) ++ ['\n']
  if isTruthy npm then res ++ zoneText npm else res

/-! ## `parseGitAttributes` (index.js:151-166) -/

/-- The tail `\s+export-ignore\s*$` of `rIgnore` matched at the start of `s`. -/
def matchExportIgnoreTail (s : Str) : Bool :=
  let rest := s.dropWhile isSpace
  rest.length < s.length && "export-ignore".toList.isPrefixOf rest
    && (rest.drop 13).all isSpace

/-- The lazy group `(.+?)` of `rIgnore` followed by the tail, on the text `s`
that follows the leading whitespace: `acc` holds the characters already taken
by the group; the group grows by one character at a time and the first
length at which the tail matches wins. -/
def matchLazyGroup : Str → Str → Option Str
  | _, [] => none
  | acc, c :: cs =>
    if isLineTerminator c then none
    else if matchExportIgnoreTail cs then some (acc ++ [c])
    else matchLazyGroup (acc ++ [c]) cs

/-- The leading `\s*` of `rIgnore` is greedy: `k` is the number of leading
whitespace characters given to it, tried from the largest down to `0`. -/
def matchLeading (s : Str) : Nat → Option Str
  | 0 => matchLazyGroup [] s
  | k + 1 =>
    match matchLazyGroup [] (s.drop (k + 1)) with
    | some g => some g
    | none => matchLeading s k

/-- Model of `rIgnore = /^(\s*(.+?)\s+export-ignore\s*)$/` on a line: the
second group of the match, or `none` when the line does not match. -/
def rIgnore (line : Line) : Option Str :=
  matchLeading line (line.takeWhile isSpace).length

/-- Model of `rComments.test(line)` with `rComments = /^(# Rules from:.+)$/`. -/
def rComments (line : Line) : Bool :=
  "# Rules from:".toList.isPrefixOf line && 13 < line.length
    && (line.drop 13).all (fun c => !isLineTerminator c)

/-- The callback of `lines.forEach` in `parseGitAttributes`, as the entries one
line adds to `result`. -/
def parseGitAttributesLine (line : Line) : List Line :=
  match rIgnore line with
  | some path => [path]
  | none => if rComments line then [line] else []

/-- Model of `parseGitAttributes(str)`. -/
def parseGitAttributes (str : Str) : List Line :=
  (split str).flatMap parseGitAttributesLine

/-! ## `diff` (index.js:177-199) and `arrayify` (index.js:209-211) -/

/-- Model of `String.prototype.indexOf(needle) !== -1`: `needle` occurs in
`hay` as a substring. -/
def isSubstring (needle : Str) : Str → Bool
  | [] => needle.isPrefixOf []
  | c :: cs => needle.isPrefixOf (c :: cs) || isSubstring needle cs

/-- Model of `remove.indexOf(ele) === -1` (index.js:193): membership in an
array, substring search in a string; a plain object has no `indexOf`. -/
def notIndexed (remove : JsVal) (ele : Line) : Except JsError Bool :=
  match remove with
  | .lines l => .ok (!l.contains ele)
  | .text s => .ok (!isSubstring ele s)
  | .object => .error .typeError
  | .nullish => .error .typeError

/-- The `while` loop of `diff` (index.js:190-196). -/
def diffLoop (remove : JsVal) : List Line → Except JsError (List Line)
  | [] => .ok []
  | ele :: rest =>
    match notIndexed remove ele with
    | .error e => .error e
    | .ok keep =>
      match diffLoop remove rest with
      | .error e => .error e
      | .ok res => .ok (if keep then ele :: res else res)

/-- Model of `diff(arr, remove)`. A string `arr` is read character by
character; a plain object has no `length`, so the loop does not run. -/
def diff (arr remove : JsVal) : Except JsError JsVal :=
  match arr, remove with
  | .nullish, _ => .ok (.lines [])
  | arr, .nullish => .ok arr
  | .lines l, remove => (diffLoop remove l).map .lines
  | .text s, remove => (diffLoop remove (s.map fun c => [c])).map .lines
  | .object, _ => .ok (.lines [])

/-- Model of `arrayify(val)`. -/
def arrayify : LineOrLines → List Line
  | .line s => [s]
  | .lines l => l

/-- Truthiness of an option value: an absent property and the empty string are
falsy, a non-empty string and every array are truthy. -/
def truthy : Option LineOrLines → Bool
  | none => false
  | some (.line s) => !s.isEmpty
  | some (.lines _) => true

/-! ## `uniq` (the `array-uniq` dependency) -/

/-- Lines of `l` not yet in `seen`, each kept at its first occurrence. -/
def uniqFrom (seen : List Line) : List Line → List Line
  | [] => []
  | x :: xs => if x ∈ seen then uniqFrom seen xs else x :: uniqFrom (x :: seen) xs

/-- Modelled from the spec: `uniq` is the package `array-uniq` (index.js:7), not
under src/. The Deduplicator "removes repeated lines, preserving
first-occurrence order". -/
def uniq (l : List Line) : List Line :=
  uniqFrom [] l

/-! ## `npmignore` (index.js:23-64) -/

/-- The properties read from `options` when the second argument has taken its
place (index.js:25): an array has none of them, `undefined || {}` is empty. -/
def asOptions : GitArg → Options
  | .str _ => {}
  | .structured i _ => { ignore := some i }
  | .lines _ => {}
  | .config o => o
  | .absent => {}

/-- Lines 24-29: when `git` is not a string and `options` is not an object, the
second argument becomes the options and `git` the empty string. -/
def shiftArguments (git : GitArg) (options : Option Options) : GitArg × Options :=
  match git, options with
  | .str s, none => (.str s, {})
  | g, none => (.str [], asOptions g)
  | g, some o => (g, o)

/-- Lines 31-43: `git` as a sequence of lines. `git.hasOwnProperty` on
`undefined`/`null` raises a `TypeError`. -/
def normalizeGit : GitArg → Except JsError JsVal
  | .absent => .error .typeError
  | .structured i a =>
    .ok (.lines ((match i with | .line s => split s | .lines l => l) ++ parseGitAttributes a))
  | .str s => .ok (.lines (split s))
  | .lines l => .ok (.lines l)
  | .config _ => .ok .object

/-- Lines 46-48: a string is replaced by its extracted lines, anything else is
left as it is. -/
def normalizeNpm (npm : NpmArg) (keepdest : Bool) : Except JsError JsVal :=
  match npm with
  | .str s => (extract (.str s) keepdest).map .lines
  | .null => .ok .nullish
  | .undefined => .ok .nullish

/-- Lines 50-53. -/
def applyUnignore (options : Options) (git npm : JsVal) : Except JsError (JsVal × JsVal) :=
  if truthy options.unignore then
    match options.unignore with
    | none => .ok (git, npm)
    | some u =>
      match diff git (.lines (arrayify u)) with
      | .error e => .error e
      | .ok git =>
        match diff npm (.lines (arrayify u)) with
        | .error e => .error e
        | .ok npm => .ok (git, npm)
  else .ok (git, npm)

/-- The string `comment.concat('#npmignore # npmignore')` (index.js:56). -/
def commentRemove : Str :=
  comment ++ "#npmignore # npmignore".toList

/-- Lines 59-61 on an array `npm`. -/
def applyIgnore (options : Options) (npm : List Line) : List Line :=
  if truthy options.ignore then
    match options.ignore with
    | none => npm
    | some i => npm ++ arrayify i
  else npm

/-- The two arguments `npmignore` passes to `format` (index.js:24-63): the
generated zone `git` and the preserved zone `uniq(npm)`. -/
def zones (npm : NpmArg) (git : GitArg) (options : Option Options) :
    Except JsError (JsVal × List Line) :=
  let (git, options) := shiftArguments git options
  match normalizeGit git with
  | .error e => .error e
  | .ok git =>
    match normalizeNpm npm options.keepdest with
    | .error e => .error e
    | .ok npm =>
      match applyUnignore options git npm with
      | .error e => .error e
      | .ok (git, npm) =>
        match diff npm (.text commentRemove) with
        | .error e => .error e
        | .ok npm =>
          match diff npm git with
          | .error e => .error e
          -- `npm` is an array from line 56 on: the last case is never reached
          | .ok (.lines npm) => .ok (git, uniq (applyIgnore options npm))
          | .ok _ => .error .typeError

/-- Model of the exported function `npmignore(npm, git, options)`. -/
def npmignore (npm : NpmArg) (git : GitArg) (options : Option Options) : Except JsError Str :=
  match zones npm git options with
  | .error e => .error e
  | .ok (git, npm) => .ok (format git (.lines npm))

/-! ## Auxiliary definitions for the statements -/

deriving instance DecidableEq for Except

/-- The lines `unignore` removes: none when the option is falsy. -/
def unignoreLines (o : Options) : List Line :=
  if truthy o.unignore then
    match o.unignore with
    | none => []
    | some u => arrayify u
  else []

/-- The lines `ignore` appends: none when the option is falsy. -/
def ignoreLines (o : Options) : List Line :=
  applyIgnore o []

/-- The lines of `npm` after line 48, an absent `npm` counting as no line. -/
def npmLines (npm : NpmArg) (keepdest : Bool) : List Line :=
  match npm with
  | .str s => (extractLoop (split s) keepdest [] []).2
  | .null => []
  | .undefined => []

/-- Number of positions of `text` at which `pat` occurs as a substring. -/
def occurrences (pat : Str) : Str → Nat
  | [] => if pat.isPrefixOf [] then 1 else 0
  | c :: cs => (if pat.isPrefixOf (c :: cs) then 1 else 0) + occurrences pat cs

/-- Following the spec's words (the Deduplicator "removes repeated lines,
preserving first-occurrence order"): the first line is kept and its later
occurrences are removed from the rest. -/
def firstOccurrences : List Line → List Line
  | [] => []
  | x :: xs => x :: (firstOccurrences xs).filter (fun y => y ≠ x)

/-- The lines of the generated zone: those of the array, none for a value that
is not an array. -/
def generatedLines : JsVal → List Line
  | .lines l => l
  | _ => []

/-- The form `\s*(.+)\s+export-ignore\s*` of a line, with its parts named:
leading whitespace, a non-empty segment without line terminator, whitespace,
the literal, trailing whitespace. -/
def ExportIgnoreForm (line ws1 p ws2 ws3 : Str) : Prop :=
  line = ws1 ++ p ++ ws2 ++ "export-ignore".toList ++ ws3 ∧ ws1.all isSpace = true ∧
    p ≠ [] ∧ p.all (fun c => !isLineTerminator c) = true ∧
    ws2 ≠ [] ∧ ws2.all isSpace = true ∧ ws3.all isSpace = true

instance (line ws1 p ws2 ws3 : Str) : Decidable (ExportIgnoreForm line ws1 p ws2 ws3) := by
  unfold ExportIgnoreForm
  infer_instance

/-- The form `# Rules from:.+` of a line. -/
def RulesCommentForm (line r : Str) : Prop :=
  line = "# Rules from:".toList ++ r ∧ r ≠ [] ∧ r.all (fun c => !isLineTerminator c) = true

instance (line r : Str) : Decidable (RulesCommentForm line r) := by
  unfold RulesCommentForm
  infer_instance

/-! ## Lemmas on the loops, `uniq`, `split` and the banner -/

theorem format_eq (git npm : JsVal) :
    format git npm = zoneText git ++ ('\n' :: '\n' :: comment) ++ '\n' :: zoneText npm := by
  cases git <;> cases npm <;>
    simp only [format, joinIfArray, isTruthy, zoneText] <;>
    (repeat' split) <;> simp_all

theorem extractLoop_snd (ls : List Line) (b : Bool) (git npm : List Line) :
    (extractLoop ls b git npm).2 =
      npm ++ (if b then ls else ls.dropWhile (fun l => !reTest l)) := by
  induction ls generalizing b git npm with
  | nil => cases b <;> simp [extractLoop]
  | cons l rest ih =>
    cases b with
    | true => simp [extractLoop, ih]
    | false =>
      cases h : reTest l with
      | true => simp [extractLoop, ih, h, List.dropWhile]
      | false => simp [extractLoop, ih, h, List.dropWhile]

theorem diffLoop_lines (r l : List Line) :
    diffLoop (.lines r) l = .ok (l.filter (fun x => !r.contains x)) := by
  induction l with
  | nil => rfl
  | cons x xs ih =>
    simp only [diffLoop, notIndexed, ih, List.filter]
    cases r.contains x <;> rfl

theorem diffLoop_text (s : Str) (l : List Line) :
    diffLoop (.text s) l = .ok (l.filter (fun x => !isSubstring x s)) := by
  induction l with
  | nil => rfl
  | cons x xs ih =>
    simp only [diffLoop, notIndexed, ih, List.filter]
    cases isSubstring x s <;> rfl

theorem applyIgnore_eq (o : Options) (l : List Line) :
    applyIgnore o l = l ++ ignoreLines o := by
  unfold ignoreLines applyIgnore
  cases h : truthy o.ignore
  · simp
  · cases o.ignore <;> simp

/-- The zones when the normalised `git` is an array of lines. -/
theorem zones_of_lines (npm : NpmArg) (git : GitArg) (options : Option Options)
    (G0 : List Line)
    (hg : normalizeGit (shiftArguments git options).1 = .ok (.lines G0)) :
    zones npm git options =
      .ok (.lines (G0.filter (fun x => !(unignoreLines (shiftArguments git options).2).contains x)),
        uniq (((((npmLines npm (shiftArguments git options).2.keepdest).filter
            (fun x => !(unignoreLines (shiftArguments git options).2).contains x)).filter
            (fun x => !isSubstring x commentRemove)).filter
            (fun x => !(G0.filter (fun x => !(unignoreLines (shiftArguments git options).2).contains x)).contains x))
          ++ ignoreLines (shiftArguments git options).2)) := by
  unfold zones
  generalize shiftArguments git options = p at hg
  obtain ⟨g, o⟩ := p
  simp only at hg ⊢
  rw [hg]
  simp only
  unfold unignoreLines applyUnignore
  cases npm <;> cases hu : truthy o.unignore <;>
    (try cases hu2 : o.unignore) <;>
    simp_all [normalizeNpm, extract, npmLines, Except.map, diff, diffLoop_lines, diffLoop_text,
      applyIgnore_eq, truthy]

theorem mem_uniqFrom (seen l : List Line) (x : Line) :
    x ∈ uniqFrom seen l ↔ x ∈ l ∧ x ∉ seen := by
  induction l generalizing seen with
  | nil => simp [uniqFrom]
  | cons y ys ih =>
    unfold uniqFrom
    by_cases hy : y ∈ seen
    · simp only [hy, if_true, ih, List.mem_cons]
      constructor
      · rintro ⟨h1, h2⟩; exact ⟨Or.inr h1, h2⟩
      · rintro ⟨h1 | h1, h2⟩
        · subst h1; exact absurd hy h2
        · exact ⟨h1, h2⟩
    · simp only [hy, if_false, List.mem_cons, ih]
      constructor
      · rintro (h | ⟨h1, h2⟩)
        · subst h; exact ⟨Or.inl rfl, hy⟩
        · exact ⟨Or.inr h1, fun h => h2 (Or.inr h)⟩
      · rintro ⟨h1 | h1, h2⟩
        · exact Or.inl h1
        · by_cases hxy : x = y
          · exact Or.inl hxy
          · exact Or.inr ⟨h1, fun h => h.elim hxy h2⟩

theorem nodup_uniqFrom (seen l : List Line) : (uniqFrom seen l).Nodup := by
  induction l generalizing seen with
  | nil => simp [uniqFrom]
  | cons y ys ih =>
    unfold uniqFrom
    by_cases hy : y ∈ seen
    · simp only [hy, if_true]; exact ih seen
    · simp only [hy, if_false, List.nodup_cons]
      refine ⟨?_, ih _⟩
      rw [mem_uniqFrom]
      simp

theorem sublist_uniqFrom (seen l : List Line) : (uniqFrom seen l).Sublist l := by
  induction l generalizing seen with
  | nil => simp [uniqFrom]
  | cons y ys ih =>
    unfold uniqFrom
    by_cases hy : y ∈ seen
    · simp only [hy, if_true]; exact (ih seen).cons _
    · simp only [hy, if_false]; exact (ih _).cons₂ _

theorem uniqFrom_of_nodup (seen l : List Line) (hn : l.Nodup) (hd : ∀ x ∈ l, x ∉ seen) :
    uniqFrom seen l = l := by
  induction l generalizing seen with
  | nil => simp [uniqFrom]
  | cons y ys ih =>
    unfold uniqFrom
    rw [List.nodup_cons] at hn
    have hy : y ∉ seen := hd y (List.mem_cons_self _ _)
    simp only [hy, if_false]
    congr 1
    apply ih _ hn.2
    intro x hx hmem
    rcases List.mem_cons.1 hmem with h | h
    · subst h; exact hn.1 hx
    · exact hd x (List.mem_cons_of_mem _ hx) h

theorem count_eq_one_of_nodup (l : List Line) (x : Line) (hn : l.Nodup) (hx : x ∈ l) :
    l.count x = 1 := by
  induction l with
  | nil => simp at hx
  | cons y ys ih =>
    rw [List.nodup_cons] at hn
    rw [List.count_cons]
    by_cases hxy : y = x
    · subst hxy
      have : List.count y ys = 0 := List.count_eq_zero.2 hn.1
      simp [this]
    · have hx2 : x ∈ ys := by
        rcases List.mem_cons.1 hx with h | h
        · exact absurd h.symm hxy
        · exact h
      simp [ih hn.2 hx2, hxy]

theorem splitNewline_ne_nil (s : Str) : splitNewline s ≠ [] := by
  induction s with
  | nil => simp [splitNewline]
  | cons c cs ih =>
    unfold splitNewline
    split
    · simp
    · split <;> simp

theorem splitNewline_of_not_mem (l : Str) (h : '\n' ∉ l) : splitNewline l = [l] := by
  induction l with
  | nil => rfl
  | cons c cs ih =>
    have hc : c ≠ '\n' := fun e => h (e ▸ List.mem_cons_self _ _)
    have hcs : '\n' ∉ cs := fun e => h (List.mem_cons_of_mem _ e)
    simp [splitNewline, hc, ih hcs]

theorem splitNewline_cons_of_ne (c : Char) (cs : Str) (hc : c ≠ '\n') :
    splitNewline (c :: cs) =
      match splitNewline cs with
      | [] => [[c]]
      | l :: ls => (c :: l) :: ls := by
  rw [splitNewline, if_neg hc]

theorem splitNewline_append (x y : Str) :
    splitNewline (x ++ '\n' :: y) = splitNewline x ++ splitNewline y := by
  induction x with
  | nil => simp [splitNewline]
  | cons c cs ih =>
    by_cases hc : c = '\n'
    · simp [splitNewline, hc, ih]
    · rw [List.cons_append, splitNewline_cons_of_ne _ _ hc, splitNewline_cons_of_ne _ _ hc, ih]
      cases h : splitNewline cs with
      | nil => exact absurd h (splitNewline_ne_nil cs)
      | cons l ls => simp

theorem splitNewline_join (ls : List Line) (hne : ls ≠ []) (h : ∀ l ∈ ls, '\n' ∉ l) :
    splitNewline (joinNewline ls) = ls := by
  induction ls with
  | nil => exact absurd rfl hne
  | cons l rest ih =>
    cases rest with
    | nil => simpa [joinNewline] using splitNewline_of_not_mem l (h l (List.mem_cons_self _ _))
    | cons l2 rest2 =>
      simp only [joinNewline]
      rw [splitNewline_append, splitNewline_of_not_mem l (h l (List.mem_cons_self _ _)),
        ih (by simp) (fun x hx => h x (List.mem_cons_of_mem _ hx))]
      rfl

theorem not_mem_of_mem_splitNewline (s : Str) (c : Char) (hc : c = '\n' ∨ c ∉ s) :
    ∀ l ∈ splitNewline s, c ∉ l := by
  induction s with
  | nil => simp [splitNewline]
  | cons d ds ih =>
    have hds : c = '\n' ∨ c ∉ ds := hc.imp id (fun h e => h (List.mem_cons_of_mem _ e))
    intro l hl
    unfold splitNewline at hl
    by_cases hd : d = '\n'
    · simp only [hd, if_true, List.mem_cons] at hl
      rcases hl with h | h
      · subst h; simp
      · exact ih hds l h
    · simp only [hd, if_false] at hl
      have hcd : c ≠ d := by
        rcases hc with h | h
        · intro e; exact hd (e ▸ h)
        · intro e; exact h (e ▸ List.mem_cons_self _ _)
      cases hs : splitNewline ds with
      | nil => exact absurd hs (splitNewline_ne_nil ds)
      | cons m ms =>
        rw [hs] at hl ih
        simp only [List.mem_cons] at hl
        rcases hl with h | h
        · subst h
          intro hmem
          rcases List.mem_cons.1 hmem with e | e
          · exact hcd e
          · exact ih hds m (List.mem_cons_self _ _) e
        · exact ih hds l (List.mem_cons_of_mem _ h)

theorem split_ne_nil (s : Str) : split s ≠ [] := splitNewline_ne_nil _

theorem newline_not_mem_of_mem_split (s : Str) : ∀ l ∈ split s, '\n' ∉ l :=
  not_mem_of_mem_splitNewline _ _ (Or.inl rfl)

theorem return_not_mem_of_mem_split (s : Str) : ∀ l ∈ split s, '\r' ∉ l := by
  apply not_mem_of_mem_splitNewline
  right
  simp [List.mem_filter]

theorem npmLines_of_no_marker (n : Str) (hn : ∀ l ∈ split n, reTest l = false) :
    npmLines (.str n) false = [] := by
  simp only [npmLines, extractLoop_snd, List.nil_append, Bool.false_eq_true, if_false]
  rw [List.dropWhile_eq_nil_iff]
  intro l hl
  simp [hn l hl]

theorem uniq_nil : uniq [] = [] := rfl

theorem zones_str (npm : NpmArg) (g : Str) (options : Option Options) :
    zones npm (.str g) options =
      .ok (.lines ((split g).filter (fun x => !(unignoreLines (options.getD {})).contains x)),
        uniq (((((npmLines npm (options.getD {}).keepdest).filter
            (fun x => !(unignoreLines (options.getD {})).contains x)).filter
            (fun x => !isSubstring x commentRemove)).filter
            (fun x => !((split g).filter
              (fun x => !(unignoreLines (options.getD {})).contains x)).contains x))
          ++ ignoreLines (options.getD {}))) := by
  have hs : shiftArguments (.str g) options = (.str g, options.getD {}) := by
    cases options <;> rfl
  have hz := zones_of_lines npm (.str g) options (split g) (by rw [hs]; rfl)
  rw [hs] at hz
  exact hz

theorem npmignore_eq_of_zones (npm : NpmArg) (git : GitArg) (options : Option Options)
    (G : JsVal) (P : List Line) (h : zones npm git options = .ok (G, P)) :
    npmignore npm git options = .ok (format G (.lines P)) := by
  unfold npmignore
  rw [h]

theorem unignoreLines_of_truthy (o : Options) (u : LineOrLines) (hu : o.unignore = some u)
    (ht : u ≠ .line []) : unignoreLines o = arrayify u := by
  unfold unignoreLines
  rw [hu]
  cases u with
  | line s =>
    cases s with
    | nil => exact absurd rfl ht
    | cons c cs => simp [truthy]
  | lines l => simp [truthy]

theorem ignoreLines_of_truthy (o : Options) (i : LineOrLines) (hi : o.ignore = some i)
    (ht : i ≠ .line []) : ignoreLines o = arrayify i := by
  unfold ignoreLines applyIgnore
  rw [hi]
  cases i with
  | line s =>
    cases s with
    | nil => exact absurd rfl ht
    | cons c cs => simp [truthy]
  | lines l => simp [truthy]

theorem normalizeGit_cases (g : GitArg) :
    normalizeGit g = .error .typeError ∨ (∃ G0, normalizeGit g = .ok (.lines G0)) ∨
      normalizeGit g = .ok .object := by
  cases g
  · exact Or.inr (Or.inl ⟨_, rfl⟩)
  · exact Or.inr (Or.inl ⟨_, rfl⟩)
  · exact Or.inr (Or.inl ⟨_, rfl⟩)
  · exact Or.inr (Or.inr rfl)
  · exact Or.inl rfl

/-- The generated zone when the normalised `git` is a plain object: it is the
object itself, or the empty array when `unignore` is applied. -/
theorem zones_of_object (npm : NpmArg) (git : GitArg) (options : Option Options)
    (hg : normalizeGit (shiftArguments git options).1 = .ok .object)
    (G : List Line) (P : List Line) (hz : zones npm git options = .ok (.lines G, P)) :
    G = [] := by
  unfold zones at hz
  generalize shiftArguments git options = p at hg hz
  obtain ⟨g, o⟩ := p
  simp only at hg hz
  rw [hg] at hz
  simp only at hz
  unfold applyUnignore at hz
  cases npm <;> cases hu : truthy o.unignore <;> cases hu2 : o.unignore <;>
    simp_all [normalizeNpm, extract, Except.map, diff, diffLoop_lines, diffLoop_text, truthy] <;>
    (split at hz <;> simp_all)

theorem zones_null_error (git : GitArg) (options : Option Options) (e : JsError)
    (hz : zones .null git options = .error e) : e = .typeError := by
  unfold zones at hz
  generalize shiftArguments git options = p at hz
  obtain ⟨g, o⟩ := p
  simp only at hz
  rcases normalizeGit_cases g with h | ⟨G0, h⟩ | h
  · rw [h] at hz
    simp at hz
    exact hz.symm
  · rw [h] at hz
    unfold applyUnignore at hz
    cases hu : truthy o.unignore <;> cases hu2 : o.unignore <;>
      simp_all [normalizeNpm, Except.map, diff, diffLoop_lines, diffLoop_text, truthy, diffLoop]
  · rw [h] at hz
    unfold applyUnignore at hz
    cases hu : truthy o.unignore <;> cases hu2 : o.unignore <;>
      simp_all [normalizeNpm, Except.map, diff, diffLoop_lines, diffLoop_text, truthy, diffLoop]

theorem prefix_of_prefix_append_newline (p : Str) (hp : '\n' ∉ p) (S X : Str)
    (h : p <+: S ++ '\n' :: X) : p <+: S := by
  induction p generalizing S with
  | nil => exact List.nil_prefix
  | cons a p ih =>
    have ha : a ≠ '\n' := fun e => hp (e ▸ List.mem_cons_self _ _)
    have hp2 : '\n' ∉ p := fun e => hp (List.mem_cons_of_mem _ e)
    cases S with
    | nil =>
      rw [List.nil_append, List.cons_prefix_cons] at h
      exact absurd h.1 ha
    | cons s S =>
      rw [List.cons_append, List.cons_prefix_cons] at h
      rw [List.cons_prefix_cons]
      exact ⟨h.1, ih hp2 S h.2⟩

theorem isSubstring_iff (p h : Str) :
    isSubstring p h = true ↔ ∃ S, S <:+ h ∧ p <+: S := by
  induction h with
  | nil =>
    simp only [isSubstring, List.isPrefixOf_iff_prefix]
    constructor
    · intro hp; exact ⟨[], List.suffix_refl _, hp⟩
    · rintro ⟨S, hS, hp⟩
      rw [List.suffix_nil] at hS
      exact hS ▸ hp
  | cons c cs ih =>
    simp only [isSubstring, Bool.or_eq_true, List.isPrefixOf_iff_prefix, ih]
    constructor
    · rintro (hp | ⟨S, hS, hp⟩)
      · exact ⟨_, List.suffix_refl _, hp⟩
      · exact ⟨S, hS.trans (List.suffix_cons _ _), hp⟩
    · rintro ⟨S, hS, hp⟩
      rcases List.suffix_cons_iff.1 hS with h1 | h1
      · exact Or.inl (h1 ▸ hp)
      · exact Or.inr ⟨S, h1, hp⟩

theorem not_prefix_of_isSubstring_false (p h S : Str) (hf : isSubstring p h = false)
    (hS : S <:+ h) : ¬ p <+: S := by
  intro hp
  have := (isSubstring_iff p h).2 ⟨S, hS, hp⟩
  rw [hf] at this
  exact Bool.false_ne_true this

theorem isSubstring_append_newline (p X Y : Str) (hp : '\n' ∉ p)
    (hX : isSubstring p X = false) (hY : isSubstring p Y = false) :
    isSubstring p (X ++ '\n' :: Y) = false := by
  rw [← Bool.not_eq_true, isSubstring_iff]
  rintro ⟨S, hS, hpS⟩
  induction X generalizing S with
  | nil =>
    rw [List.nil_append] at hS
    rcases List.suffix_cons_iff.1 hS with h1 | h1
    · subst h1
      have := prefix_of_prefix_append_newline p hp [] Y hpS
      exact not_prefix_of_isSubstring_false p [] [] hX (List.suffix_refl _) this
    · exact not_prefix_of_isSubstring_false p Y S hY h1 hpS
  | cons x X ih =>
    rw [List.cons_append] at hS
    rcases List.suffix_cons_iff.1 hS with h1 | h1
    · subst h1
      have := prefix_of_prefix_append_newline p hp (x :: X) Y hpS
      exact not_prefix_of_isSubstring_false p _ _ hX (List.suffix_refl _) this
    · apply ih _ S h1 hpS
      rw [← Bool.not_eq_true, isSubstring_iff]
      rintro ⟨T, hT, hpT⟩
      exact not_prefix_of_isSubstring_false p _ T hX (hT.trans (List.suffix_cons _ _)) hpT

theorem isSubstring_joinNewline (p : Str) (hp : '\n' ∉ p) (hne : p ≠ []) (ls : List Line)
    (h : ∀ l ∈ ls, isSubstring p l = false) : isSubstring p (joinNewline ls) = false := by
  induction ls with
  | nil =>
    cases p with
    | nil => exact absurd rfl hne
    | cons a p => rfl
  | cons l rest ih =>
    cases rest with
    | nil => exact h l (List.mem_cons_self _ _)
    | cons l2 rest2 =>
      simp only [joinNewline]
      exact isSubstring_append_newline p l _ hp (h l (List.mem_cons_self _ _))
        (ih (fun x hx => h x (List.mem_cons_of_mem _ hx)))

theorem occurrences_append_left (pat A R : Str)
    (h : ∀ S, S ≠ [] → S <:+ A → ¬ pat <+: S ++ R) :
    occurrences pat (A ++ R) = occurrences pat R := by
  induction A with
  | nil => rfl
  | cons a A ih =>
    rw [List.cons_append, occurrences]
    have h1 : pat.isPrefixOf (a :: (A ++ R)) = false := by
      rw [← Bool.not_eq_true, List.isPrefixOf_iff_prefix]
      exact h (a :: A) (by simp) (List.suffix_refl _)
    rw [h1, ih (fun S hS hSA => h S hS (hSA.trans (List.suffix_cons _ _)))]
    simp

theorem occurrences_eq_zero (pat B : Str) (h : ∀ S, S <:+ B → ¬ pat <+: S) :
    occurrences pat B = 0 := by
  induction B with
  | nil =>
    rw [occurrences]
    have h1 : pat.isPrefixOf [] = false := by
      rw [← Bool.not_eq_true, List.isPrefixOf_iff_prefix]
      exact h [] (List.suffix_refl _)
    rw [h1]
    rfl
  | cons b B ih =>
    rw [occurrences]
    have h1 : pat.isPrefixOf (b :: B) = false := by
      rw [← Bool.not_eq_true, List.isPrefixOf_iff_prefix]
      exact h _ (List.suffix_refl _)
    rw [h1, ih (fun S hS => h S (hS.trans (List.suffix_cons _ _)))]
    rfl

theorem occurrences_cons_of_ne (pat : Str) (a c : Char) (t X : Str) (hpat : pat = a :: t)
    (hne : a ≠ c) : occurrences pat (c :: X) = occurrences pat X := by
  rw [occurrences]
  have h1 : pat.isPrefixOf (c :: X) = false := by
    rw [← Bool.not_eq_true, List.isPrefixOf_iff_prefix, hpat, List.cons_prefix_cons]
    exact fun h => hne h.1
  rw [h1]
  simp

theorem newline_not_mem_commentLine1 : '\n' ∉ commentLine1 := by
  set_option maxRecDepth 100000 in decide

theorem comment_eq_cons : comment = '#' :: comment.tail := by
  set_option maxRecDepth 100000 in decide

theorem commentLine1_not_in_comment_tail : isSubstring commentLine1 comment.tail = false := by
  set_option maxRecDepth 100000 in decide

theorem commentLine1_leads_of_comment_leads (S X : Str) (h : comment <+: S ++ '\n' :: X) :
    commentLine1 <+: S := by
  apply prefix_of_prefix_append_newline _ newline_not_mem_commentLine1 S X
  exact (List.prefix_append commentLine1 ('\n' :: commentLine2)).trans h

/-- The banner occurs once in `A ++ "\n\n" ++ comment ++ "\n" ++ B` when its
first line occurs neither in `A` nor in `B`. -/
theorem occurrences_comment_document (A B : Str)
    (hA : isSubstring commentLine1 A = false) (hB : isSubstring commentLine1 B = false) :
    occurrences comment (A ++ ('\n' :: '\n' :: comment) ++ '\n' :: B) = 1 := by
  have h1 : occurrences comment (A ++ ('\n' :: '\n' :: comment) ++ '\n' :: B)
      = occurrences comment ('\n' :: ('\n' :: comment ++ '\n' :: B)) := by
    rw [List.append_assoc]
    apply occurrences_append_left
    intro S _ hS hp
    exact not_prefix_of_isSubstring_false _ _ S hA hS
      (commentLine1_leads_of_comment_leads S _ hp)
  rw [h1, occurrences_cons_of_ne comment '#' '\n' _ _ comment_eq_cons (by decide),
    List.cons_append,
    occurrences_cons_of_ne comment '#' '\n' _ _ comment_eq_cons (by decide)]
  have h2 : occurrences comment (comment ++ '\n' :: B)
      = 1 + occurrences comment (comment.tail ++ '\n' :: B) := by
    have hp : comment.isPrefixOf (comment ++ '\n' :: B) = true :=
      List.isPrefixOf_iff_prefix.2 (List.prefix_append _ _)
    generalize hc : comment ++ '\n' :: B = T at hp
    rw [comment_eq_cons, List.cons_append] at hc
    subst hc
    rw [occurrences, hp]
    rfl
  rw [h2]
  have h3 : occurrences comment (comment.tail ++ '\n' :: B) = occurrences comment ('\n' :: B) := by
    apply occurrences_append_left
    intro S _ hS hp
    exact not_prefix_of_isSubstring_false _ _ S commentLine1_not_in_comment_tail hS
      (commentLine1_leads_of_comment_leads S _ hp)
  rw [h3, occurrences_cons_of_ne comment '#' '\n' _ _ comment_eq_cons (by decide)]
  rw [occurrences_eq_zero]
  intro S hS hp
  apply not_prefix_of_isSubstring_false _ _ S hB hS
  exact (List.prefix_append commentLine1 ('\n' :: commentLine2)).trans hp

theorem commentLine1_ne_nil : commentLine1 ≠ [] := by
  set_option maxRecDepth 100000 in decide

theorem commentLine1_in_commentRemove : isSubstring commentLine1 commentRemove = true := by
  set_option maxRecDepth 100000 in decide

theorem mem_split_of_mem_npmLines (n : Str) (b : Bool) (l : Line)
    (h : l ∈ npmLines (.str n) b) : l ∈ split n := by
  simp only [npmLines, extractLoop_snd, List.nil_append] at h
  cases b with
  | true => simpa using h
  | false =>
    simp only [Bool.false_eq_true, if_false] at h
    exact (List.dropWhile_suffix _).subset h

theorem not_mem_joinNewline (c : Char) (hc : c ≠ '\n') (ls : List Line)
    (h : ∀ l ∈ ls, c ∉ l) : c ∉ joinNewline ls := by
  induction ls with
  | nil => simp [joinNewline]
  | cons l rest ih =>
    cases rest with
    | nil => simpa [joinNewline] using h l (List.mem_cons_self _ _)
    | cons l2 rest2 =>
      simp only [joinNewline, List.mem_append, List.mem_cons]
      rintro (h1 | h1 | h1)
      · exact h l (List.mem_cons_self _ _) h1
      · exact hc h1
      · exact ih (fun x hx => h x (List.mem_cons_of_mem _ hx)) h1

theorem splitNewline_joinNewline_or_nil (P : List Line) (h : ∀ l ∈ P, '\n' ∉ l) :
    splitNewline (joinNewline P) = if P = [] then [[]] else P := by
  by_cases hP : P = []
  · subst hP; rfl
  · rw [if_neg hP]; exact splitNewline_join P hP h

theorem newline_not_mem_commentLine2 : '\n' ∉ commentLine2 := by
  set_option maxRecDepth 100000 in decide

theorem return_not_mem_comment : '\r' ∉ comment := by
  set_option maxRecDepth 100000 in decide

/-- The lines of a formatted document: the generated zone, an empty line, the
two banner lines, then the preserved zone (one empty line when it is empty). -/
theorem split_format (G P : List Line) (hG : G ≠ [])
    (hGn : ∀ l ∈ G, '\n' ∉ l) (hGr : ∀ l ∈ G, '\r' ∉ l)
    (hPn : ∀ l ∈ P, '\n' ∉ l) (hPr : ∀ l ∈ P, '\r' ∉ l) :
    split (format (.lines G) (.lines P))
      = G ++ [] :: commentLine1 :: commentLine2 :: (if P = [] then [[]] else P) := by
  have hne : format (.lines G) (.lines P) ≠ [] := by
    rw [format_eq]
    simp
  have hr : '\r' ∉ format (.lines G) (.lines P) := by
    rw [format_eq]
    unfold zoneText
    simp only [List.mem_append, List.mem_cons]
    rintro ((h | h | h | h) | h | h)
    · exact not_mem_joinNewline _ (by decide) G hGr h
    · exact absurd h (by decide)
    · exact absurd h (by decide)
    · exact return_not_mem_comment h
    · exact absurd h (by decide)
    · exact not_mem_joinNewline _ (by decide) P hPr h
  unfold split
  rw [if_neg hne, List.filter_eq_self.2]
  · have he : format (.lines G) (.lines P)
        = joinNewline G ++ '\n' :: ([] ++ '\n' :: (commentLine1 ++ '\n' ::
            (commentLine2 ++ '\n' :: joinNewline P))) := by
      simp [format_eq, zoneText, comment]
    rw [he, splitNewline_append, splitNewline_append, splitNewline_append, splitNewline_append,
      splitNewline_join G hG hGn, splitNewline_of_not_mem _ newline_not_mem_commentLine1,
      splitNewline_of_not_mem _ newline_not_mem_commentLine2,
      splitNewline_joinNewline_or_nil P hPn]
    rfl
  · intro a ha
    simp only [decide_eq_true_eq]
    intro e
    exact hr (e ▸ ha)

theorem dropWhile_append_of_stop {α : Type} (p : α → Bool) (A B : List α) (x : α)
    (hx : p x = false) :
    (A ++ x :: B).dropWhile p = A.dropWhile p ++ x :: B := by
  induction A with
  | nil => simp [List.dropWhile, hx]
  | cons a A ih =>
    simp only [List.cons_append, List.dropWhile]
    cases p a <;> simp [ih]

theorem reTest_commentLine1 : reTest commentLine1 = true := by
  set_option maxRecDepth 100000 in decide

theorem isSubstring_nil (s : Str) : isSubstring [] s = true := by
  cases s <;> simp [isSubstring, List.isPrefixOf]

theorem isSubstring_commentLines :
    isSubstring commentLine1 commentRemove = true ∧
      isSubstring commentLine2 commentRemove = true := by
  set_option maxRecDepth 100000 in decide

/-- The lines `extract` returns for a formatted document: some lines of the
generated zone or empty lines, the two banner lines, the preserved zone. -/
theorem npmLines_format (G P : List Line) (k : Bool) (hG : G ≠ [])
    (hGn : ∀ l ∈ G, '\n' ∉ l) (hGr : ∀ l ∈ G, '\r' ∉ l)
    (hPn : ∀ l ∈ P, '\n' ∉ l) (hPr : ∀ l ∈ P, '\r' ∉ l) :
    ∃ T : List Line, (∀ t ∈ T, t ∈ G ∨ t = []) ∧
      npmLines (.str (format (.lines G) (.lines P))) k
        = T ++ commentLine1 :: commentLine2 :: (if P = [] then [[]] else P) := by
  simp only [npmLines, extractLoop_snd, List.nil_append, split_format G P hG hGn hGr hPn hPr]
  have hsplit : G ++ [] :: commentLine1 :: commentLine2 :: (if P = [] then [[]] else P)
      = (G ++ [[]]) ++ commentLine1 :: commentLine2 :: (if P = [] then [[]] else P) := by
    simp
  rw [hsplit]
  cases k with
  | true =>
    refine ⟨G ++ [[]], ?_, by simp⟩
    intro t ht
    rcases List.mem_append.1 ht with h | h
    · exact Or.inl h
    · exact Or.inr (by simpa using h)
  | false =>
    simp only [Bool.false_eq_true, if_false]
    rw [dropWhile_append_of_stop _ _ _ _ (by simp [reTest_commentLine1])]
    refine ⟨(G ++ [[]]).dropWhile (fun l => !reTest l), ?_, rfl⟩
    intro t ht
    have ht2 := (List.dropWhile_suffix _).subset ht
    rcases List.mem_append.1 ht2 with h | h
    · exact Or.inl h
    · exact Or.inr (by simpa using h)

/-- The preserved zone computed from the lines `N` when no `ignore` and no
`unignore` applies, as in `zones_str`. -/
theorem filter_preserved_fixed (G T P : List Line)
    (hT : ∀ t ∈ T, t ∈ G ∨ t = [])
    (hP : ∀ l ∈ P, isSubstring l commentRemove = false ∧ l ∉ G) :
    ((T ++ commentLine1 :: commentLine2 :: (if P = [] then [[]] else P)).filter
        (fun x => !isSubstring x commentRemove)).filter (fun x => !G.contains x) = P := by
  rw [List.filter_filter, List.filter_append]
  have h1 : T.filter (fun x => (!G.contains x) && !isSubstring x commentRemove) = [] := by
    rw [List.filter_eq_nil_iff]
    intro t ht
    rcases hT t ht with h | h
    · simp [h]
    · subst h; simp [isSubstring_nil]
  rw [h1, List.nil_append, List.filter_cons, List.filter_cons]
  simp only [isSubstring_commentLines.1, isSubstring_commentLines.2, Bool.not_true,
    Bool.and_false, Bool.false_eq_true, if_false]
  by_cases hPe : P = []
  · subst hPe
    simp [isSubstring_nil]
  · rw [if_neg hPe, List.filter_eq_self]
    intro l hl
    have := hP l hl
    simp [this.1, this.2]

theorem uniqFrom_eq_filter (seen l : List Line) :
    uniqFrom seen l = (firstOccurrences l).filter (fun y => y ∉ seen) := by
  induction l generalizing seen with
  | nil => rfl
  | cons x xs ih =>
    unfold uniqFrom firstOccurrences
    by_cases hx : x ∈ seen
    · rw [if_pos hx, ih, List.filter_cons]
      simp only [hx, not_true_eq_false, decide_False, Bool.false_eq_true, if_false,
        List.filter_filter]
      apply List.filter_congr
      intro y _
      by_cases hy : y ∈ seen
      · simp [hy]
      · have : y ≠ x := fun e => hy (e ▸ hx)
        simp [hy, this]
    · rw [if_neg hx, ih, List.filter_cons]
      simp only [hx, not_false_eq_true, decide_True, if_true, List.filter_filter]
      congr 1
      apply List.filter_congr
      intro y _
      simp only [List.mem_cons, not_or, ne_eq, Bool.decide_and, Bool.and_comm]

theorem uniq_eq_firstOccurrences (l : List Line) : uniq l = firstOccurrences l := by
  rw [uniq, uniqFrom_eq_filter]
  simp

theorem diffLoop_object (l : List Line) :
    diffLoop .object l = if l = [] then .ok [] else .error .typeError := by
  cases l with
  | nil => rfl
  | cons x xs => simp [diffLoop, notIndexed]

/-- The zones when the normalised `git` is a plain object. -/
theorem zones_of_object_eq (npm : NpmArg) (git : GitArg) (options : Option Options)
    (hg : normalizeGit (shiftArguments git options).1 = .ok .object) :
    zones npm git options =
      if truthy (shiftArguments git options).2.unignore then
        .ok (.lines [], uniq ((((npmLines npm (shiftArguments git options).2.keepdest).filter
            (fun x => !(unignoreLines (shiftArguments git options).2).contains x)).filter
            (fun x => !isSubstring x commentRemove))
          ++ ignoreLines (shiftArguments git options).2))
      else if (npmLines npm (shiftArguments git options).2.keepdest).filter
            (fun x => !isSubstring x commentRemove) = [] then
        .ok (.object, uniq (ignoreLines (shiftArguments git options).2))
      else .error .typeError := by
  unfold zones
  generalize shiftArguments git options = p at hg
  obtain ⟨g, o⟩ := p
  simp only at hg ⊢
  rw [hg]
  simp only
  unfold unignoreLines applyUnignore
  cases hu : truthy o.unignore
  · simp only [Bool.false_eq_true, if_false]
    cases npm with
    | str s =>
      simp only [normalizeNpm, extract, Except.map, diff, diffLoop_text, npmLines,
        diffLoop_object]
      by_cases hY : List.filter (fun x => !isSubstring x commentRemove)
          (extractLoop (split s) o.keepdest [] []).2 = []
      · simp [hY, applyIgnore_eq]
      · simp [hY]
    | null => simp [normalizeNpm, diff, npmLines, diffLoop, applyIgnore_eq, Except.map]
    | undefined => simp [normalizeNpm, diff, npmLines, diffLoop, applyIgnore_eq, Except.map]
  · simp only [if_true]
    cases hu2 : o.unignore with
    | none => rw [hu2] at hu; simp [truthy] at hu
    | some u =>
      cases npm <;>
        simp [normalizeNpm, extract, Except.map, diff, diffLoop_lines, diffLoop_text, npmLines,
          applyIgnore_eq]

/-- The preserved zone in every case in which `zones` returns. -/
theorem zones_preserved (npm : NpmArg) (git : GitArg) (options : Option Options)
    (G : JsVal) (P : List Line) (hz : zones npm git options = .ok (G, P)) :
    P = uniq (((((npmLines npm (shiftArguments git options).2.keepdest).filter
            (fun x => !(unignoreLines (shiftArguments git options).2).contains x)).filter
            (fun x => !isSubstring x commentRemove)).filter
            (fun x => !(generatedLines G).contains x))
          ++ ignoreLines (shiftArguments git options).2) := by
  rcases normalizeGit_cases (shiftArguments git options).1 with h | ⟨G0, h⟩ | h
  · exfalso
    unfold zones at hz
    generalize shiftArguments git options = p at h hz
    obtain ⟨g, o⟩ := p
    simp only at h hz
    rw [h] at hz
    simp at hz
  · rw [zones_of_lines npm git options G0 h] at hz
    simp only [Except.ok.injEq, Prod.mk.injEq] at hz
    obtain ⟨hG0, hP0⟩ := hz
    rw [← hP0, ← hG0]
    rfl
  · rw [zones_of_object_eq npm git options h] at hz
    by_cases hu : truthy (shiftArguments git options).2.unignore = true
    · rw [if_pos hu] at hz
      simp only [Except.ok.injEq, Prod.mk.injEq] at hz
      obtain ⟨hG0, hP0⟩ := hz
      rw [← hP0, ← hG0]
      simp [generatedLines]
    · rw [if_neg hu] at hz
      have hul : unignoreLines (shiftArguments git options).2 = [] := by
        simp [unignoreLines, hu]
      split at hz
      · rename_i hY
        simp only [Except.ok.injEq, Prod.mk.injEq] at hz
        obtain ⟨hG0, hP0⟩ := hz
        rw [← hP0, ← hG0, hul]
        simp [generatedLines, hY]
      · simp at hz

theorem dropWhile_eq_self_of_head {α : Type} (p : α → Bool) (a : α) (l : List α)
    (h : p a = false) : (a :: l).dropWhile p = a :: l := by
  simp [List.dropWhile, h]

/-- A literal that does not start with whitespace is found after the
whitespace of `rest` exactly when `rest` is whitespace, the literal, anything. -/
theorem isPrefixOf_dropWhile_iff (a : Char) (lit rest : Str) (ha : isSpace a = false) :
    (a :: lit).isPrefixOf (rest.dropWhile isSpace) = true ↔
      ∃ ws post, rest = ws ++ (a :: lit) ++ post ∧ ws.all isSpace = true := by
  rw [List.isPrefixOf_iff_prefix]
  constructor
  · rintro ⟨post, hpost⟩
    refine ⟨rest.takeWhile isSpace, post, ?_, List.all_takeWhile⟩
    rw [List.append_assoc, hpost, List.takeWhile_append_dropWhile]
  · rintro ⟨ws, post, rfl, hws⟩
    rw [List.append_assoc, List.dropWhile_append_of_pos (by simpa using hws), List.cons_append,
      dropWhile_eq_self_of_head _ _ _ ha]
    exact ⟨post, rfl⟩

theorem reMatchAt_iff (s : Str) :
    reMatchAt s = true ↔
      ∃ ws post, s = '#' :: (ws ++ "npmignore".toList ++ post) ∧ ws.all isSpace = true := by
  cases s with
  | nil => simp [reMatchAt]
  | cons c rest =>
    have hlit : "npmignore".toList = 'n' :: "pmignore".toList := by decide
    simp only [reMatchAt, Bool.and_eq_true, beq_iff_eq, List.cons.injEq]
    rw [hlit, isPrefixOf_dropWhile_iff 'n' _ rest (by decide)]
    constructor
    · rintro ⟨hc, ws, post, hr, hws⟩
      exact ⟨ws, post, ⟨hc, hr⟩, hws⟩
    · rintro ⟨ws, post, ⟨hc, hr⟩, hws⟩
      exact ⟨hc, ws, post, hr, hws⟩

/-- The lines `re` accepts: a `#`, whitespace or none, then `npmignore`,
anywhere in the line. -/
theorem reTest_iff (line : Line) :
    reTest line = true ↔
      ∃ pre ws post, line = pre ++ '#' :: (ws ++ "npmignore".toList ++ post) ∧
        ws.all isSpace = true := by
  induction line with
  | nil => simp [reTest]
  | cons c cs ih =>
    rw [reTest, Bool.or_eq_true, reMatchAt_iff, ih]
    constructor
    · rintro (⟨ws, post, h, hws⟩ | ⟨pre, ws, post, h, hws⟩)
      · exact ⟨[], ws, post, h, hws⟩
      · exact ⟨c :: pre, ws, post, by rw [h]; rfl, hws⟩
    · rintro ⟨pre, ws, post, h, hws⟩
      cases pre with
      | nil => exact Or.inl ⟨ws, post, h, hws⟩
      | cons d pre =>
        rw [List.cons_append, List.cons.injEq] at h
        exact Or.inr ⟨pre, ws, post, h.2, hws⟩

theorem isSpace_of_isLineTerminator (c : Char) (h : isLineTerminator c = true) :
    isSpace c = true := by
  simp only [isLineTerminator, Bool.or_eq_true, beq_iff_eq] at h
  simp only [isSpace, Bool.or_eq_true, Bool.and_eq_true, decide_eq_true_eq, beq_iff_eq]
  omega

theorem matchExportIgnoreTail_iff (s : Str) :
    matchExportIgnoreTail s = true ↔
      ∃ ws2 ws3, s = ws2 ++ "export-ignore".toList ++ ws3 ∧ ws2 ≠ [] ∧
        ws2.all isSpace = true ∧ ws3.all isSpace = true := by
  have hlit : "export-ignore".toList = 'e' :: "xport-ignore".toList := by decide
  have hlen : "export-ignore".toList.length = 13 := by decide
  simp only [matchExportIgnoreTail, Bool.and_eq_true, decide_eq_true_eq]
  constructor
  · rintro ⟨⟨hlt, hpre⟩, hall⟩
    rw [List.isPrefixOf_iff_prefix] at hpre
    obtain ⟨post, hpost⟩ := hpre
    have hdrop : (s.dropWhile isSpace).drop 13 = post := by
      rw [← hpost, ← hlen, List.drop_left]
    rw [hdrop] at hall
    refine ⟨s.takeWhile isSpace, post, ?_, ?_, List.all_takeWhile, hall⟩
    · rw [List.append_assoc, hpost, List.takeWhile_append_dropWhile]
    · intro he
      have := congrArg List.length (List.takeWhile_append_dropWhile isSpace s)
      rw [he] at this
      simp at this
      omega
  · rintro ⟨ws2, ws3, rfl, hne, hws2, hws3⟩
    have hd : (ws2 ++ "export-ignore".toList ++ ws3).dropWhile isSpace
        = "export-ignore".toList ++ ws3 := by
      rw [List.append_assoc, List.dropWhile_append_of_pos (by simpa using hws2), hlit,
        List.cons_append, dropWhile_eq_self_of_head _ _ _ (by decide)]
    rw [hd]
    refine ⟨⟨?_, ?_⟩, ?_⟩
    · have : 0 < ws2.length := List.length_pos.2 hne
      simp only [List.length_append]
      omega
    · rw [List.isPrefixOf_iff_prefix]
      exact List.prefix_append _ _
    · rw [← hlen, List.drop_left]
      exact hws3

theorem matchLazyGroup_sound (s acc g : Str) (h : matchLazyGroup acc s = some g) :
    ∃ p t, g = acc ++ p ∧ s = p ++ t ∧ p ≠ [] ∧
      p.all (fun c => !isLineTerminator c) = true ∧ matchExportIgnoreTail t = true := by
  induction s generalizing acc with
  | nil => simp [matchLazyGroup] at h
  | cons c cs ih =>
    unfold matchLazyGroup at h
    by_cases hc : isLineTerminator c = true
    · simp [hc] at h
    · simp only [hc, Bool.false_eq_true, if_false] at h
      by_cases ht : matchExportIgnoreTail cs = true
      · simp only [ht, if_true, Option.some.injEq] at h
        exact ⟨[c], cs, h.symm, rfl, by simp, by simpa using hc, ht⟩
      · simp only [ht, Bool.false_eq_true, if_false] at h
        obtain ⟨p, t, hg, hs, _, hall, htail⟩ := ih _ h
        refine ⟨c :: p, t, ?_, ?_, by simp, ?_, htail⟩
        · rw [hg]; simp
        · rw [hs]; rfl
        · simp only [List.all_cons, Bool.and_eq_true]
          exact ⟨by simpa using hc, hall⟩

theorem matchLazyGroup_complete (p t acc : Str) (hne : p ≠ [])
    (hall : p.all (fun c => !isLineTerminator c) = true)
    (ht : matchExportIgnoreTail t = true) :
    (matchLazyGroup acc (p ++ t)).isSome = true := by
  induction p generalizing acc with
  | nil => exact absurd rfl hne
  | cons c p ih =>
    simp only [List.all_cons, Bool.and_eq_true, Bool.not_eq_true'] at hall
    rw [List.cons_append, matchLazyGroup]
    simp only [hall.1, Bool.false_eq_true, if_false]
    by_cases h1 : matchExportIgnoreTail (p ++ t) = true
    · simp [h1]
    · simp only [h1, Bool.false_eq_true, if_false]
      cases p with
      | nil => exact absurd ht h1
      | cons d p => exact ih _ (by simp) hall.2

theorem matchExportIgnoreTail_of_not_space (c : Char) (s : Str) (hc : isSpace c = false) :
    matchExportIgnoreTail (c :: s) = false := by
  simp [matchExportIgnoreTail, dropWhile_eq_self_of_head _ _ _ hc]

theorem matchLazyGroup_exact (p t acc : Str) (hne : p ≠ [])
    (hall : p.all (fun c => !isSpace c) = true)
    (ht : matchExportIgnoreTail t = true) :
    matchLazyGroup acc (p ++ t) = some (acc ++ p) := by
  induction p generalizing acc with
  | nil => exact absurd rfl hne
  | cons c p ih =>
    simp only [List.all_cons, Bool.and_eq_true, Bool.not_eq_true'] at hall
    have hlt : isLineTerminator c = false := by
      cases h : isLineTerminator c with
      | false => rfl
      | true =>
        have := isSpace_of_isLineTerminator c h
        rw [hall.1] at this
        exact absurd this (by decide)
    rw [List.cons_append, matchLazyGroup]
    simp only [hlt, Bool.false_eq_true, if_false]
    cases p with
    | nil => simp [ht]
    | cons d p =>
      have hd : isSpace d = false := by
        simp only [List.all_cons, Bool.and_eq_true, Bool.not_eq_true'] at hall
        exact hall.2.1
      rw [List.cons_append, matchExportIgnoreTail_of_not_space d _ hd]
      simp only [Bool.false_eq_true, if_false]
      rw [← List.cons_append, ih _ (by simp) hall.2]
      simp

theorem matchLeading_sound (s : Str) (k : Nat) (g : Str) (h : matchLeading s k = some g) :
    ∃ j, j ≤ k ∧ matchLazyGroup [] (s.drop j) = some g := by
  induction k with
  | zero => exact ⟨0, Nat.le_refl _, by simpa [matchLeading] using h⟩
  | succ k ih =>
    unfold matchLeading at h
    cases hm : matchLazyGroup [] (s.drop (k + 1)) with
    | some g2 =>
      rw [hm] at h
      simp only [Option.some.injEq] at h
      exact ⟨k + 1, Nat.le_refl _, h ▸ hm⟩
    | none =>
      rw [hm] at h
      obtain ⟨j, hj, hg⟩ := ih h
      exact ⟨j, Nat.le_succ_of_le hj, hg⟩

theorem matchLeading_complete (s : Str) (k j : Nat) (hj : j ≤ k)
    (h : (matchLazyGroup [] (s.drop j)).isSome = true) :
    (matchLeading s k).isSome = true := by
  induction k with
  | zero =>
    have : j = 0 := Nat.le_zero.1 hj
    subst this
    simpa [matchLeading] using h
  | succ k ih =>
    unfold matchLeading
    cases hm : matchLazyGroup [] (s.drop (k + 1)) with
    | some g2 => rfl
    | none =>
      simp only
      apply ih
      rcases Nat.lt_or_ge j (k + 1) with h1 | h1
      · exact Nat.lt_succ_iff.1 h1
      · have : j = k + 1 := Nat.le_antisymm hj h1
        rw [this, hm] at h
        exact absurd h (by decide)

theorem matchLeading_top (s : Str) (k : Nat) (g : Str)
    (h : matchLazyGroup [] (s.drop k) = some g) : matchLeading s k = some g := by
  cases k with
  | zero => simpa [matchLeading] using h
  | succ k => simp [matchLeading, h]

theorem all_take_of_le_takeWhile {α : Type} (p : α → Bool) (l : List α) (j : Nat)
    (hj : j ≤ (l.takeWhile p).length) : (l.take j).all p = true := by
  induction l generalizing j with
  | nil => simp
  | cons a l ih =>
    cases j with
    | zero => simp
    | succ j =>
      by_cases ha : p a = true
      · rw [List.takeWhile_cons_of_pos ha] at hj
        simp only [List.length_cons, Nat.add_le_add_iff_right] at hj
        simp only [List.take_succ_cons, List.all_cons, ha, Bool.true_and]
        exact ih j hj
      · rw [List.takeWhile_cons_of_neg ha] at hj
        simp at hj

theorem matchLazyGroup_minimal (s acc g p t : Str) (h : matchLazyGroup acc s = some g)
    (hs : s = p ++ t) (hne : p ≠ []) (ht : matchExportIgnoreTail t = true) :
    g.length ≤ acc.length + p.length := by
  induction s generalizing acc p with
  | nil =>
    simp [matchLazyGroup] at h
  | cons c cs ih =>
    cases p with
    | nil => exact absurd rfl hne
    | cons d p =>
      rw [List.cons_append, List.cons.injEq] at hs
      unfold matchLazyGroup at h
      by_cases hc : isLineTerminator c = true
      · simp [hc] at h
      · simp only [hc, Bool.false_eq_true, if_false] at h
        by_cases h1 : matchExportIgnoreTail cs = true
        · simp only [h1, if_true, Option.some.injEq] at h
          rw [← h]
          simp
        · simp only [h1, Bool.false_eq_true, if_false] at h
          cases p with
          | nil =>
            rw [List.nil_append] at hs
            rw [hs.2] at h1
            exact absurd ht h1
          | cons e p =>
            have := ih (acc ++ [c]) (e :: p) h hs.2 (by simp)
            simp only [List.length_append, List.length_cons, List.length_nil] at this ⊢
            omega

theorem matchLeading_first (s : Str) (k : Nat) (g : Str) (h : matchLeading s k = some g) :
    ∃ j, j ≤ k ∧ matchLazyGroup [] (s.drop j) = some g ∧
      ∀ i, j < i → i ≤ k → matchLazyGroup [] (s.drop i) = none := by
  induction k with
  | zero =>
    refine ⟨0, Nat.le_refl _, by simpa [matchLeading] using h, ?_⟩
    intro i h1 h2
    omega
  | succ k ih =>
    unfold matchLeading at h
    cases hm : matchLazyGroup [] (s.drop (k + 1)) with
    | some g2 =>
      rw [hm] at h
      simp only [Option.some.injEq] at h
      refine ⟨k + 1, Nat.le_refl _, h ▸ hm, ?_⟩
      intro i h1 h2
      omega
    | none =>
      rw [hm] at h
      obtain ⟨j, hj, hg, hfirst⟩ := ih h
      refine ⟨j, Nat.le_succ_of_le hj, hg, ?_⟩
      intro i h1 h2
      rcases Nat.lt_or_ge i (k + 1) with h3 | h3
      · exact hfirst i h1 (Nat.lt_succ_iff.1 h3)
      · have : i = k + 1 := Nat.le_antisymm h2 h3
        rw [this]
        exact hm

/-- The segment `rIgnore` returns: among the ways to read the line in the
form of `ExportIgnoreForm`, the one with the longest leading whitespace and,
for it, the shortest segment. -/
theorem rIgnore_selects (line g : Str) (h : rIgnore line = some g) :
    ∃ ws1 ws2 ws3, ExportIgnoreForm line ws1 g ws2 ws3 ∧
      ∀ v1 p v2 v3, ExportIgnoreForm line v1 p v2 v3 →
        v1.length < ws1.length ∨ (v1.length = ws1.length ∧ g.length ≤ p.length) := by
  obtain ⟨j, hj, hm, hfirst⟩ := matchLeading_first _ _ _ h
  obtain ⟨p, t, hg, hs, hne, hall, ht⟩ := matchLazyGroup_sound _ _ _ hm
  obtain ⟨ws2, ws3, htail, hne2, hws2, hws3⟩ := (matchExportIgnoreTail_iff t).1 ht
  rw [List.nil_append] at hg
  subst hg
  have heq : line = line.take j ++ g ++ ws2 ++ "export-ignore".toList ++ ws3 := by
    have := (List.take_append_drop j line).symm
    rw [hs, htail] at this
    simpa only [List.append_assoc] using this
  have hjl : j ≤ line.length :=
    Nat.le_trans hj ((List.takeWhile_sublist _).length_le)
  have hlen : (line.take j).length = j := by
    rw [List.length_take]
    omega
  refine ⟨line.take j, ws2, ws3, ⟨heq, all_take_of_le_takeWhile _ _ _ hj, hne, hall, hne2,
    hws2, hws3⟩, ?_⟩
  intro v1 q v2 v3 hf
  obtain ⟨hl, hv1, hqne, hqall, hv2ne, hv2, hv3⟩ := hf
  have hqt : matchExportIgnoreTail (v2 ++ "export-ignore".toList ++ v3) = true :=
    (matchExportIgnoreTail_iff _).2 ⟨v2, v3, rfl, hv2ne, hv2, hv3⟩
  have hline : line = v1 ++ (q ++ (v2 ++ "export-ignore".toList ++ v3)) := by
    rw [hl]; simp [List.append_assoc]
  have hv1n : v1.length ≤ (line.takeWhile isSpace).length := by
    rw [hline, List.takeWhile_append_of_pos (by simpa using hv1)]
    simp
  have hdrop : line.drop v1.length = q ++ (v2 ++ "export-ignore".toList ++ v3) := by
    rw [hline, List.drop_left]
  rw [hlen]
  rcases Nat.lt_trichotomy v1.length j with h1 | h1 | h1
  · exact Or.inl h1
  · right
    refine ⟨h1, ?_⟩
    rw [← h1, hdrop] at hm
    simpa using matchLazyGroup_minimal _ [] g q _ hm rfl hqne hqt
  · exfalso
    have hn := hfirst v1.length h1 hv1n
    have hsome := matchLazyGroup_complete q _ [] hqne hqall hqt
    rw [hdrop] at hn
    rw [hn] at hsome
    exact absurd hsome (by decide)

theorem rIgnore_sound (line g : Str) (h : rIgnore line = some g) :
    ∃ ws1 ws2 ws3, ExportIgnoreForm line ws1 g ws2 ws3 := by
  obtain ⟨j, hj, hm⟩ := matchLeading_sound _ _ _ h
  obtain ⟨p, t, hg, hs, hne, hall, ht⟩ := matchLazyGroup_sound _ _ _ hm
  obtain ⟨ws2, ws3, htail, hne2, hws2, hws3⟩ := (matchExportIgnoreTail_iff t).1 ht
  rw [List.nil_append] at hg
  subst hg
  have heq : line = line.take j ++ g ++ ws2 ++ "export-ignore".toList ++ ws3 := by
    have := (List.take_append_drop j line).symm
    rw [hs, htail] at this
    simpa only [List.append_assoc] using this
  exact ⟨line.take j, ws2, ws3, heq, all_take_of_le_takeWhile _ _ _ hj, hne, hall, hne2,
    hws2, hws3⟩

theorem rIgnore_complete (line ws1 p ws2 ws3 : Str) (h : ExportIgnoreForm line ws1 p ws2 ws3) :
    (rIgnore line).isSome = true := by
  obtain ⟨hl, hws1, hne, hall, hne2, hws2, hws3⟩ := h
  have ht : matchExportIgnoreTail (ws2 ++ "export-ignore".toList ++ ws3) = true :=
    (matchExportIgnoreTail_iff _).2 ⟨ws2, ws3, rfl, hne2, hws2, hws3⟩
  have hline : line = ws1 ++ (p ++ (ws2 ++ "export-ignore".toList ++ ws3)) := by
    rw [hl]; simp [List.append_assoc]
  apply matchLeading_complete line _ ws1.length
  · rw [hline, List.takeWhile_append_of_pos (by simpa using hws1)]
    simp
  · rw [hline, List.drop_left]
    exact matchLazyGroup_complete p _ [] hne hall ht

theorem rIgnore_exact (line ws1 p ws2 ws3 : Str) (h : ExportIgnoreForm line ws1 p ws2 ws3)
    (hp : p.all (fun c => !isSpace c) = true) : rIgnore line = some p := by
  obtain ⟨hl, hws1, hne, _, hne2, hws2, hws3⟩ := h
  have ht : matchExportIgnoreTail (ws2 ++ "export-ignore".toList ++ ws3) = true :=
    (matchExportIgnoreTail_iff _).2 ⟨ws2, ws3, rfl, hne2, hws2, hws3⟩
  have hline : line = ws1 ++ (p ++ (ws2 ++ "export-ignore".toList ++ ws3)) := by
    rw [hl]; simp [List.append_assoc]
  have hn : (line.takeWhile isSpace).length = ws1.length := by
    rw [hline, List.takeWhile_append_of_pos (by simpa using hws1)]
    cases p with
    | nil => exact absurd rfl hne
    | cons c p =>
      simp only [List.all_cons, Bool.and_eq_true, Bool.not_eq_true'] at hp
      rw [List.cons_append, List.takeWhile_cons_of_neg (by simp [hp.1])]
      simp
  unfold rIgnore
  rw [hn]
  apply matchLeading_top
  rw [hline, List.drop_left]
  simpa using matchLazyGroup_exact p _ [] hne hp ht

theorem rComments_iff (line : Line) :
    rComments line = true ↔ ∃ r, RulesCommentForm line r := by
  have hlen : "# Rules from:".toList.length = 13 := by decide
  simp only [rComments, Bool.and_eq_true, decide_eq_true_eq, RulesCommentForm]
  constructor
  · rintro ⟨⟨hpre, hlt⟩, hall⟩
    rw [List.isPrefixOf_iff_prefix] at hpre
    obtain ⟨r, hr⟩ := hpre
    have hd : line.drop 13 = r := by rw [← hr, ← hlen, List.drop_left]
    rw [hd] at hall
    refine ⟨r, hr.symm, ?_, hall⟩
    intro he
    rw [← hr, he] at hlt
    simp [hlen] at hlt
  · rintro ⟨r, rfl, hne, hall⟩
    refine ⟨⟨?_, ?_⟩, ?_⟩
    · rw [List.isPrefixOf_iff_prefix]
      exact List.prefix_append _ _
    · have : 0 < r.length := List.length_pos.2 hne
      simp only [List.length_append, hlen]
      omega
    · rw [← hlen, List.drop_left]
      exact hall

/-! ## The properties of the specification -/

/-- C1 (as stated, refuted): when `gitSource` is the banner itself, the output
of `merge('', banner)` contains the banner twice. -/
theorem banner_once_counterexample :
    npmignore (.str []) (.str comment) none
      = .ok (comment ++ "\n\n".toList ++ comment ++ "\n".toList) ∧
    occurrences comment (comment ++ "\n\n".toList ++ comment ++ "\n".toList) = 2 := by
  set_option maxRecDepth 100000 in decide

/-- C1 (amended): when the first line of the banner is a substring of no line
of `gitSource` and of no line appended by `ignore`, and occurs in a line of
`npmText` only as that whole line, the string returned by `merge` contains the
two-line banner exactly once. -/
theorem banner_once (n g : Str) (options : Option Options)
    (hg : ∀ l ∈ split g, isSubstring commentLine1 l = false)
    (hn : ∀ l ∈ split n, l = commentLine1 ∨ isSubstring commentLine1 l = false)
    (hi : ∀ l ∈ ignoreLines (options.getD {}), isSubstring commentLine1 l = false) :
    ∃ out, npmignore (.str n) (.str g) options = .ok out ∧ occurrences comment out = 1 := by
  have hz := zones_str (.str n) g options
  refine ⟨_, npmignore_eq_of_zones _ _ _ _ _ hz, ?_⟩
  rw [format_eq]
  apply occurrences_comment_document
  · apply isSubstring_joinNewline _ newline_not_mem_commentLine1 commentLine1_ne_nil
    intro l hl
    exact hg l (List.mem_of_mem_filter hl)
  · apply isSubstring_joinNewline _ newline_not_mem_commentLine1 commentLine1_ne_nil
    intro l hl
    rw [uniq, mem_uniqFrom] at hl
    rcases List.mem_append.1 hl.1 with h | h
    · have h1 := List.mem_of_mem_filter h
      rw [List.mem_filter] at h1
      have h2 := mem_split_of_mem_npmLines n _ l (List.mem_of_mem_filter h1.1)
      rcases hn l h2 with h3 | h3
      · exfalso
        have h4 := h1.2
        rw [h3, commentLine1_in_commentRemove] at h4
        exact absurd h4 (by decide)
      · exact h3
    · exact hi l h

theorem banner_once_witness :
    ∃ out, npmignore (.str ("x\n\n".toList ++ comment ++ "\nextra".toList)) (.str "x\ny".toList)
        (some { ignore := some (.line "c".toList) }) = .ok out ∧
      occurrences comment out = 1 :=
  banner_once ("x\n\n".toList ++ comment ++ "\nextra".toList) "x\ny".toList
    (some { ignore := some (.line "c".toList) })
    (by set_option maxRecDepth 100000 in decide)
    (by set_option maxRecDepth 100000 in decide)
    (by set_option maxRecDepth 100000 in decide)

/-- C2: when neither `ignore` nor `unignore` is set, merging the output of
`merge` again with the same `gitSource` and configuration returns the same
output, with `keepdest` true or false. -/
theorem merge_idempotent (n g : Str) (options : Option Options)
    (hi : (options.getD {}).ignore = none) (hu : (options.getD {}).unignore = none) :
    ∃ out, npmignore (.str n) (.str g) options = .ok out ∧
      npmignore (.str out) (.str g) options = .ok out := by
  have hil : ignoreLines (options.getD {}) = [] := by
    simp [ignoreLines, applyIgnore, hi, truthy]
  have hul : unignoreLines (options.getD {}) = [] := by
    simp [unignoreLines, hu, truthy]
  have hz1 := zones_str (.str n) g options
  rw [hil, hul] at hz1
  simp only [List.contains_nil, Bool.not_false, List.filter_true, List.append_nil] at hz1
  refine ⟨_, npmignore_eq_of_zones _ _ _ _ _ hz1, ?_⟩
  generalize hP : uniq (((npmLines (.str n) (options.getD {}).keepdest).filter
      (fun x => !isSubstring x commentRemove)).filter (fun x => !(split g).contains x)) = P
  have hmem : ∀ l ∈ P, l ∈ split n ∧ isSubstring l commentRemove = false ∧ l ∉ split g := by
    intro l hl
    rw [← hP, uniq, mem_uniqFrom] at hl
    have h1 := hl.1
    rw [List.mem_filter, List.mem_filter] at h1
    refine ⟨mem_split_of_mem_npmLines n _ l h1.1.1, ?_, ?_⟩
    · simpa using h1.1.2
    · simpa using h1.2
  have hnodup : P.Nodup := by
    rw [← hP]; exact nodup_uniqFrom _ _
  have hz2 := zones_str (.str (format (.lines (split g)) (.lines P))) g options
  rw [hil, hul] at hz2
  simp only [List.contains_nil, Bool.not_false, List.filter_true, List.append_nil] at hz2
  obtain ⟨T, hT, hN⟩ := npmLines_format (split g) P (options.getD {}).keepdest
    (split_ne_nil g) (newline_not_mem_of_mem_split g) (return_not_mem_of_mem_split g)
    (fun l hl => newline_not_mem_of_mem_split n l (hmem l hl).1)
    (fun l hl => return_not_mem_of_mem_split n l (hmem l hl).1)
  rw [hN, filter_preserved_fixed (split g) T P hT (fun l hl => (hmem l hl).2), uniq,
    uniqFrom_of_nodup [] P hnodup (by simp)] at hz2
  exact npmignore_eq_of_zones _ _ _ _ _ hz2

theorem merge_idempotent_witness :
    ∃ out, npmignore (.str "# npmignore\nextra".toList) (.str "x\ny".toList)
        (some { keepdest := true }) = .ok out ∧
      npmignore (.str out) (.str "x\ny".toList) (some { keepdest := true }) = .ok out :=
  merge_idempotent "# npmignore\nextra".toList "x\ny".toList (some { keepdest := true }) rfl rfl

/-- C3 (as stated, refuted): `merge('', 'a', {ignore: 'a'})` passes the line `a`
to the formatter in both zones. -/
theorem zones_disjoint_counterexample :
    zones (.str []) (.str "a".toList) (some { ignore := some (.line "a".toList) })
      = .ok (.lines ["a".toList], ["a".toList]) ∧
    "a".toList ∈ ["a".toList] := by
  decide

/-- C3 (amended): a line that is in both the generated-zone sequence and the
preserved-zone sequence passed to the formatter is one of the lines appended by
`ignore` (the option of the configuration in effect after lines 24-29). -/
theorem zones_disjoint_except_ignore (npm : NpmArg) (git : GitArg) (options : Option Options)
    (G P : List Line) (l : Line)
    (hz : zones npm git options = .ok (.lines G, P)) (hG : l ∈ G) (hP : l ∈ P) :
    l ∈ ignoreLines (shiftArguments git options).2 := by
  rcases normalizeGit_cases (shiftArguments git options).1 with h | ⟨G0, h⟩ | h
  · exfalso
    unfold zones at hz
    generalize shiftArguments git options = p at h hz
    obtain ⟨g, o⟩ := p
    simp only at h hz
    rw [h] at hz
    simp at hz
  · rw [zones_of_lines npm git options G0 h] at hz
    simp only [Except.ok.injEq, Prod.mk.injEq, JsVal.lines.injEq] at hz
    obtain ⟨hG0, hP0⟩ := hz
    rw [← hP0, uniq, mem_uniqFrom] at hP
    rcases List.mem_append.1 hP.1 with h1 | h1
    · exfalso
      rw [List.mem_filter] at h1
      rw [hG0] at h1
      simp [hG] at h1
    · exact h1
  · have := zones_of_object npm git options h G P hz
    rw [this] at hG
    simp at hG

theorem zones_disjoint_except_ignore_witness :
    "b".toList ∈ ignoreLines
      (shiftArguments (.str "b".toList) (some { ignore := some (.line "b".toList) })).2 :=
  zones_disjoint_except_ignore (.str "a".toList) (.str "b".toList)
    (some { ignore := some (.line "b".toList) }) ["b".toList] ["b".toList] "b".toList
    (by decide) (by decide) (by decide)

/-- C4 (the code at the failing input): in `merge('# npmignore\nabove', 'x')`
the line `above` comes after the marker line, is none of the marker comment
lines, is no line of the git sequence and no `unignore` is given, yet the
preserved zone is empty: `above` is a substring of the string
`comment.concat('#npmignore # npmignore')` and `diff` drops it. -/
theorem custom_rule_dropped :
    split "# npmignore\nabove".toList = ["# npmignore".toList, "above".toList] ∧
    reTest "# npmignore".toList = true ∧
    "above".toList ∉ [commentLine1, commentLine2, "#npmignore".toList, "# npmignore".toList] ∧
    "above".toList ∉ split "x".toList ∧
    isSubstring "above".toList commentRemove = true ∧
    zones (.str "# npmignore\nabove".toList) (.str "x".toList) none
      = .ok (.lines ["x".toList], []) ∧
    npmignore (.str "# npmignore\nabove".toList) (.str "x".toList) none
      = .ok ("x\n\n".toList ++ comment ++ "\n".toList) := by
  set_option maxRecDepth 100000 in decide

/-- C5 (as stated, refuted): `merge('a\nb', 'x\ny')` is not
`'x\ny\n\n' + banner + '\na\nb'`, although neither input has a marker line and
they share no line; the lines `a` and `b` are not in the output. -/
theorem merge_marker_free_counterexample :
    (∀ l ∈ split "a\nb".toList, reTest l = false) ∧
    (∀ l ∈ split "x\ny".toList, reTest l = false) ∧
    (∀ l ∈ split "a\nb".toList, l ∉ split "x\ny".toList) ∧
    npmignore (.str "a\nb".toList) (.str "x\ny".toList) none
      ≠ .ok ("x\ny\n\n".toList ++ comment ++ "\na\nb".toList) ∧
    npmignore (.str "a\nb".toList) (.str "x\ny".toList) none
      = .ok ("x\ny\n\n".toList ++ comment ++ "\n".toList) := by
  set_option maxRecDepth 100000 in decide

/-- C5 (amended): when neither `npmText` nor `gitSource` contains a marker line
and they share no line, `merge(npmText, gitSource)` without configuration is the
lines of `gitSource` joined by newlines, two newlines, the banner and one
newline, with nothing after it: the lines of `npmText` are not carried over. -/
theorem merge_marker_free (n g : Str)
    (hn : ∀ l ∈ split n, reTest l = false)
    (_hg : ∀ l ∈ split g, reTest l = false)
    (_hd : ∀ l ∈ split n, l ∉ split g) :
    npmignore (.str n) (.str g) none
      = .ok (joinNewline (split g) ++ '\n' :: '\n' :: comment ++ ['\n']) := by
  have hz := zones_of_lines (.str n) (.str g) none (split g) rfl
  have hs : shiftArguments (.str g) none = (.str g, {}) := rfl
  rw [hs] at hz
  simp only [] at hz
  rw [npmLines_of_no_marker n hn] at hz
  unfold npmignore
  rw [hz]
  simp [unignoreLines, ignoreLines, applyIgnore, truthy, uniq_nil, format_eq, zoneText, joinNewline]

theorem merge_marker_free_witness :
    npmignore (.str "a\nb".toList) (.str "x\ny".toList) none
      = .ok (joinNewline (split "x\ny".toList) ++ '\n' :: '\n' :: comment ++ ['\n']) :=
  merge_marker_free "a\nb".toList "x\ny".toList
    (by set_option maxRecDepth 100000 in decide)
    (by set_option maxRecDepth 100000 in decide)
    (by set_option maxRecDepth 100000 in decide)

/-- C6: `extract(null, options)` and `extract(undefined, options)` raise the
error 'npmignore expects a string.', every string (the empty one included) gives
a sequence of lines, and so `extract` fails exactly when the text is absent. -/
theorem extract_fails_iff_absent (npmignored : Bool) :
    extract .null npmignored = .error (.invalidInput "npmignore expects a string.".toList) ∧
    extract .undefined npmignored = .error (.invalidInput "npmignore expects a string.".toList) ∧
    (∀ s : Str, ∃ lines, extract (.str s) npmignored = .ok lines) ∧
    (∀ text : NpmArg, (∃ e, extract text npmignored = .error e) ↔
      (text = .null ∨ text = .undefined)) := by
  refine ⟨rfl, rfl, fun s => ⟨_, rfl⟩, ?_⟩
  intro text
  cases text <;> simp [extract]

/-- C7 (as stated, refuted): `merge(null, 'x')` returns a string, it does not
fail. -/
theorem merge_null_counterexample :
    npmignore .null (.str "x".toList) none = .ok ("x\n\n".toList ++ comment ++ "\n".toList) := by
  set_option maxRecDepth 100000 in decide

/-- C7 (amended): `merge(null, gitSource, configuration)` never fails with
Invalid Input, the extractor is not called; for a string `gitSource` it returns
the document whose generated zone is the git lines without the `unignore` lines
and whose preserved zone is the deduplicated `ignore` lines. -/
theorem merge_null_not_invalid_input (git : GitArg) (g : Str) (options : Option Options)
    (message : Str) :
    npmignore .null git options ≠ .error (.invalidInput message) ∧
    npmignore .null (.str g) options =
      .ok (format
        (.lines ((split g).filter (fun x => !(unignoreLines (options.getD {})).contains x)))
        (.lines (uniq (ignoreLines (options.getD {}))))) := by
  constructor
  · intro h
    unfold npmignore at h
    cases hz : zones .null git options with
    | error e =>
      rw [hz] at h
      have := zones_null_error git options e hz
      subst this
      simp at h
    | ok v =>
      rw [hz] at h
      simp at h
  · have hz := zones_str .null g options
    simp only [npmLines, List.filter_nil, List.nil_append] at hz
    exact npmignore_eq_of_zones _ _ _ _ _ hz

theorem merge_null_not_invalid_input_witness :
    npmignore .null (.lines []) none
        ≠ .error (.invalidInput "npmignore expects a string.".toList) ∧
    npmignore .null (.str "x".toList) none =
      .ok (format
        (.lines ((split "x".toList).filter
          (fun x => !(unignoreLines ((none : Option Options).getD {})).contains x)))
        (.lines (uniq (ignoreLines ((none : Option Options).getD {}))))) :=
  merge_null_not_invalid_input (.lines []) "x".toList none "npmignore expects a string.".toList

/-- C8 (the code at the failing input): `merge('a', undefined, {})` raises a
`TypeError` at `git.hasOwnProperty` (index.js:31), although the same call
without the third argument returns a string. -/
theorem merge_absent_git_with_options :
    npmignore (.str "a".toList) .absent (some {}) = .error .typeError ∧
    npmignore (.str "a".toList) .absent none
      = .ok ("\n\n\n\n".toList ++ comment ++ "\n".toList) := by
  set_option maxRecDepth 100000 in decide

/-- C9 (as stated, refuted): with `unignore: ''` the guard `if (options.unignore)`
is false and nothing is removed: the empty line, listed in `unignore`, stays in
the generated zone of `merge('', '', {unignore: ''})`. -/
theorem unignore_removes_counterexample :
    zones (.str []) (.str []) (some { unignore := some (.line []) })
      = .ok (.lines [[], [], []], []) ∧
    ([] : Line) ∈ arrayify (.line []) ∧ ([] : Line) ∈ [([] : Line), [], []] := by
  decide

/-- C9 (amended): when `unignore` is a non-empty string or a sequence of lines,
no line listed in it is in the generated zone, and none is in the preserved
zone unless `ignore` appends it; the generated zone is the lines of `gitSource`
without the `unignore` lines, in their order, and the preserved zone is a
subsequence of the extracted lines of `npmText` followed by the `ignore` lines. -/
theorem unignore_removes (n g : Str) (o : Options) (u : LineOrLines)
    (hu : o.unignore = some u) (ht : u ≠ .line []) :
    ∃ G P, zones (.str n) (.str g) (some o) = .ok (.lines G, P) ∧
      npmignore (.str n) (.str g) (some o) = .ok (format (.lines G) (.lines P)) ∧
      (∀ l ∈ arrayify u, l ∉ G ∧ (l ∈ P → l ∈ ignoreLines o)) ∧
      G = (split g).filter (fun x => !(arrayify u).contains x) ∧
      G.Sublist (split g) ∧
      P.Sublist (npmLines (.str n) o.keepdest ++ ignoreLines o) := by
  have hz := zones_str (.str n) g (some o)
  simp only [Option.getD_some] at hz
  rw [unignoreLines_of_truthy o u hu ht] at hz
  refine ⟨_, _, hz, npmignore_eq_of_zones _ _ _ _ _ hz, ?_, rfl, List.filter_sublist _, ?_⟩
  · intro l hl
    refine ⟨?_, ?_⟩
    · simp [List.mem_filter, hl]
    · intro hP
      rw [uniq, mem_uniqFrom] at hP
      rcases List.mem_append.1 hP.1 with h | h
      · simp [List.mem_filter, hl] at h
      · exact h
  · refine (sublist_uniqFrom _ _).trans ?_
    refine List.Sublist.append ?_ (List.Sublist.refl _)
    exact ((List.filter_sublist _).trans (List.filter_sublist _)).trans (List.filter_sublist _)

theorem unignore_removes_witness :
    (∃ G P, zones (.str "a".toList) (.str "b".toList) (some { unignore := some (.line "a".toList) })
        = .ok (.lines G, P) ∧
      npmignore (.str "a".toList) (.str "b".toList) (some { unignore := some (.line "a".toList) })
        = .ok (format (.lines G) (.lines P)) ∧
      (∀ l ∈ arrayify (.line "a".toList), l ∉ G ∧
        (l ∈ P → l ∈ ignoreLines { unignore := some (.line "a".toList) })) ∧
      G = (split "b".toList).filter (fun x => !(arrayify (.line "a".toList)).contains x) ∧
      G.Sublist (split "b".toList) ∧
      P.Sublist (npmLines (.str "a".toList) false
        ++ ignoreLines { unignore := some (.line "a".toList) })) ∧
    zones (.str "a".toList) (.str "b".toList) (some { unignore := some (.line "a".toList) })
      = .ok (.lines ["b".toList], []) :=
  ⟨unignore_removes "a".toList "b".toList { unignore := some (.line "a".toList) }
    (.line "a".toList) rfl (by decide), by decide⟩

/-- C10 (as stated, refuted): with `ignore: ''` the guard `if (options.ignore)`
is false and nothing is appended: the preserved zone of
`merge('', '', {ignore: ''})` is empty and does not hold the empty line. -/
theorem ignore_adds_counterexample :
    zones (.str []) (.str []) (some { ignore := some (.line []) })
      = .ok (.lines [[], [], []], []) ∧
    ([] : Line) ∈ arrayify (.line []) ∧ ([] : List Line).count ([] : Line) ≠ 1 := by
  decide

/-- C10 (amended): when `ignore` is a non-empty string or a sequence of lines,
every line listed in it occurs exactly once in the preserved zone, whatever
`npmText`, the git lines and `unignore` are. -/
theorem ignore_adds (npm : NpmArg) (g : Str) (o : Options) (i : LineOrLines)
    (hi : o.ignore = some i) (ht : i ≠ .line []) :
    ∃ G P, zones npm (.str g) (some o) = .ok (.lines G, P) ∧
      npmignore npm (.str g) (some o) = .ok (format (.lines G) (.lines P)) ∧
      ∀ l ∈ arrayify i, P.count l = 1 := by
  have hz := zones_str npm g (some o)
  simp only [Option.getD_some] at hz
  rw [ignoreLines_of_truthy o i hi ht] at hz
  refine ⟨_, _, hz, npmignore_eq_of_zones _ _ _ _ _ hz, ?_⟩
  intro l hl
  apply count_eq_one_of_nodup _ _ (nodup_uniqFrom _ _)
  rw [mem_uniqFrom]
  exact ⟨List.mem_append_right _ hl, by simp⟩

theorem ignore_adds_witness :
    (∃ G P, zones (.str []) (.str []) (some { ignore := some (.line "custom".toList) })
        = .ok (.lines G, P) ∧
      npmignore (.str []) (.str []) (some { ignore := some (.line "custom".toList) })
        = .ok (format (.lines G) (.lines P)) ∧
      ∀ l ∈ arrayify (.line "custom".toList), P.count l = 1) ∧
    zones (.str []) (.str []) (some { ignore := some (.line "custom".toList) })
      = .ok (.lines [[], [], []], ["custom".toList]) :=
  ⟨ignore_adds (.str []) [] { ignore := some (.line "custom".toList) }
    (.line "custom".toList) rfl (by decide), by decide⟩

/-- C11: the preserved-zone sequence passed to the formatter has no line twice,
and it is the sequence of the filtered npm-derived lines followed by the
`ignore` lines in which every occurrence of a line after its first is removed. -/
theorem preserved_zone_deduplicated (npm : NpmArg) (git : GitArg) (options : Option Options)
    (G : JsVal) (P : List Line) (hz : zones npm git options = .ok (G, P)) :
    P.Nodup ∧
    P = firstOccurrences (((((npmLines npm (shiftArguments git options).2.keepdest).filter
            (fun x => !(unignoreLines (shiftArguments git options).2).contains x)).filter
            (fun x => !isSubstring x commentRemove)).filter
            (fun x => !(generatedLines G).contains x))
          ++ ignoreLines (shiftArguments git options).2) := by
  have h := zones_preserved npm git options G P hz
  refine ⟨?_, ?_⟩
  · rw [h]
    exact nodup_uniqFrom _ _
  · rw [← uniq_eq_firstOccurrences]
    exact h

theorem preserved_zone_deduplicated_witness :
    ["q".toList, "z".toList].Nodup ∧
    ["q".toList, "z".toList] = firstOccurrences
      (((((npmLines (.str "# npmignore\nq\nq".toList)
          (shiftArguments (.str "x".toList)
            (some { ignore := some (.lines ["q".toList, "z".toList, "z".toList]) })).2.keepdest).filter
            (fun x => !(unignoreLines (shiftArguments (.str "x".toList)
              (some { ignore := some (.lines ["q".toList, "z".toList, "z".toList]) })).2).contains
                x)).filter
            (fun x => !isSubstring x commentRemove)).filter
            (fun x => !(generatedLines (.lines ["x".toList])).contains x))
          ++ ignoreLines (shiftArguments (.str "x".toList)
            (some { ignore := some (.lines ["q".toList, "z".toList, "z".toList]) })).2) :=
  preserved_zone_deduplicated (.str "# npmignore\nq\nq".toList) (.str "x".toList)
    (some { ignore := some (.lines ["q".toList, "z".toList, "z".toList]) })
    (.lines ["x".toList]) ["q".toList, "z".toList]
    (by set_option maxRecDepth 100000 in decide)

/-- C12 (as stated, refuted): in `merge('', {ignore: 'x', attributes: 'path
export-ignore'})` the object is taken as the options: the generated zone is the
three empty lines of the empty git source and `x` is in the preserved zone. -/
theorem structured_git_alone_counterexample :
    zones (.str []) (.structured (.line "x".toList) "path export-ignore".toList) none
      = .ok (.lines [[], [], []], ["x".toList]) ∧
    npmignore (.str []) (.structured (.line "x".toList) "path export-ignore".toList) none
      = .ok ("\n\n\n\n".toList ++ comment ++ "\nx".toList) := by
  set_option maxRecDepth 100000 in decide

/-- C12 (amended): with a configuration object as third argument (here the
empty one) the generated zone of `merge(npmText, {ignore: 'x', attributes:
'path export-ignore'}, {})` is exactly `x`, `path` and the output starts with
`'x\npath\n\n'` and the banner; with no third argument the object is the
configuration and the call is `merge(npmText, '', {ignore: 'x'})`. -/
theorem structured_git_with_options (n : Str) :
    (∃ P, zones (.str n) (.structured (.line "x".toList) "path export-ignore".toList) (some {})
        = .ok (.lines ["x".toList, "path".toList], P) ∧
      npmignore (.str n) (.structured (.line "x".toList) "path export-ignore".toList) (some {})
        = .ok ("x\npath\n\n".toList ++ comment ++ '\n' :: joinNewline P)) ∧
    npmignore (.str n) (.structured (.line "x".toList) "path export-ignore".toList) none
      = npmignore (.str n) (.str []) (some { ignore := some (.line "x".toList) }) := by
  constructor
  · have hz := zones_of_lines (.str n)
      (.structured (.line "x".toList) "path export-ignore".toList) (some {})
      ["x".toList, "path".toList] (by set_option maxRecDepth 100000 in decide)
    have hs : shiftArguments (.structured (.line "x".toList) "path export-ignore".toList)
        (some {}) = (.structured (.line "x".toList) "path export-ignore".toList, {}) := rfl
    rw [hs] at hz
    simp only [] at hz
    have hul : unignoreLines {} = [] := rfl
    rw [hul] at hz
    simp only [List.contains_nil, Bool.not_false, List.filter_true] at hz
    refine ⟨_, hz, ?_⟩
    rw [npmignore_eq_of_zones _ _ _ _ _ hz, format_eq]
    have hj : joinNewline ["x".toList, "path".toList] = "x\npath".toList := by decide
    simp only [zoneText, hj]
    have hx : "x\npath\n\n".toList = "x\npath".toList ++ ['\n', '\n'] := by decide
    rw [hx]
    simp
  · unfold npmignore zones
    rfl

/-- C13 (as stated, refuted): for the empty string `I`, splitting at the
newlines after removing the carriage returns gives one empty line, but the
generated zone of `merge('', {ignore: '', attributes: ''}, {})` has three. -/
theorem structured_normalisation_counterexample :
    zones (.str []) (.structured (.line []) []) (some {}) = .ok (.lines [[], [], []], []) ∧
    splitNewline (([] : Str).filter (fun c => c ≠ '\r')) ++ parseGitAttributes [] = [[]] := by
  set_option maxRecDepth 100000 in decide

/-- C13 (amended): for a structured git source and a configuration object
without `unignore`, the generated zone is the lines of `I` followed by the
entries of `parseGitAttributes(A)`, where the lines of `I` are `I` split at the
newlines after removing the carriage returns when `I` is a non-empty string,
three empty lines when `I` is the empty string, and `I` itself when it is a
sequence. -/
theorem structured_normalisation (npm : NpmArg) (I : LineOrLines) (A : Str) (o : Options)
    (hu : o.unignore = none) :
    ∃ P, zones npm (.structured I A) (some o)
      = .ok (.lines ((match I with
          | .line s => if s = [] then [[], [], []] else splitNewline (s.filter (fun c => c ≠ '\r'))
          | .lines l => l) ++ parseGitAttributes A), P) := by
  have hul : unignoreLines o = [] := by simp [unignoreLines, hu, truthy]
  have hsplit : ∀ s : Str, split s
      = if s = [] then [[], [], []] else splitNewline (s.filter (fun c => c ≠ '\r')) := by
    intro s
    by_cases hs : s = []
    · subst hs; rfl
    · simp [split, hs]
  cases I with
  | line s =>
    have hz := zones_of_lines npm (.structured (.line s) A) (some o)
      (split s ++ parseGitAttributes A) rfl
    have hs : shiftArguments (.structured (.line s) A) (some o)
        = (.structured (.line s) A, o) := rfl
    rw [hs] at hz
    simp only [] at hz
    rw [hul] at hz
    simp only [List.contains_nil, Bool.not_false, List.filter_true] at hz
    rw [hsplit s] at hz
    exact ⟨_, hz⟩
  | lines l =>
    have hz := zones_of_lines npm (.structured (.lines l) A) (some o)
      (l ++ parseGitAttributes A) rfl
    have hs : shiftArguments (.structured (.lines l) A) (some o)
        = (.structured (.lines l) A, o) := rfl
    rw [hs] at hz
    simp only [] at hz
    rw [hul] at hz
    simp only [List.contains_nil, Bool.not_false, List.filter_true] at hz
    exact ⟨_, hz⟩

theorem structured_normalisation_witness :
    ∃ P, zones (.str "a".toList) (.structured (.lines ["x".toList]) "path export-ignore".toList)
        (some { keepdest := true })
      = .ok (.lines ((match LineOrLines.lines ["x".toList] with
          | .line s => if s = [] then [[], [], []] else splitNewline (s.filter (fun c => c ≠ '\r'))
          | .lines l => l) ++ parseGitAttributes "path export-ignore".toList), P) :=
  structured_normalisation (.str "a".toList) (.lines ["x".toList]) "path export-ignore".toList
    { keepdest := true } rfl

/-- C14: a configuration object passed as second argument, with no third
argument, gives the same result as `merge(npmText, '', cfg)`. -/
theorem positional_overload (npm : NpmArg) (cfg : Options) :
    npmignore npm (.config cfg) none = npmignore npm (.str []) (some cfg) ∧
    zones npm (.config cfg) none = zones npm (.str []) (some cfg) ∧
    shiftArguments (.config cfg) none = (.str [], cfg) := by
  refine ⟨?_, ?_, rfl⟩
  · unfold npmignore zones
    rfl
  · unfold zones
    rfl

/-- C15: with the flag preset `extract` returns every line of the split text;
with the flag unset it returns the tail of the split text that starts at the
first line accepted by `re`, and nothing when no line is accepted. -/
theorem extract_shape (text : Str) :
    extract (.str text) true = .ok (split text) ∧
    ∃ before tail, split text = before ++ tail ∧
      extract (.str text) false = .ok tail ∧
      (∀ l ∈ before, reTest l = false) ∧
      (∀ l, tail.head? = some l → reTest l = true) ∧
      ((∀ l ∈ split text, reTest l = false) → tail = []) := by
  refine ⟨?_, (split text).takeWhile (fun l => !reTest l),
    (split text).dropWhile (fun l => !reTest l), ?_, ?_, ?_, ?_, ?_⟩
  · simp [extract, extractLoop_snd]
  · exact (List.takeWhile_append_dropWhile _ _).symm
  · simp [extract, extractLoop_snd]
  · intro l hl
    have := List.mem_takeWhile_imp hl
    simpa using this
  · intro l hl
    have := List.head?_dropWhile_not (fun l => !reTest l) (split text)
    rw [hl] at this
    simpa using this
  · intro h
    rw [List.dropWhile_eq_nil_iff]
    intro l hl
    simp [h l hl]

/-- C16 (as stated, refuted): the line `npmignore`, without `#`, is not
recognised: `extract('npmignore\nfoo')` with the flag unset returns no line. -/
theorem marker_recogniser_counterexample :
    split "npmignore\nfoo".toList = ["npmignore".toList, "foo".toList] ∧
    reTest "npmignore".toList = false ∧
    extract (.str "npmignore\nfoo".toList) false = .ok [] := by
  set_option maxRecDepth 100000 in decide

/-- C16 (amended): a line is recognised exactly when it contains a `#`, then
whitespace or none, then `npmignore` (the `#` is required, the match may start
anywhere in the line); for a text whose first such line is `L`, `extract` with
the flag unset returns the tail of the split text that starts at `L`. -/
theorem marker_recogniser (text : Str) (before : List Line) (L : Line) (rest : List Line)
    (hs : split text = before ++ L :: rest)
    (hb : ∀ l ∈ before, reTest l = false) (hL : reTest L = true) :
    (∀ line : Line, reTest line = true ↔
      ∃ pre ws post, line = pre ++ '#' :: (ws ++ "npmignore".toList ++ post) ∧
        ws.all isSpace = true) ∧
    extract (.str text) false = .ok (L :: rest) := by
  refine ⟨reTest_iff, ?_⟩
  simp only [extract, extractLoop_snd, List.nil_append, Bool.false_eq_true, if_false, hs]
  rw [dropWhile_append_of_stop _ _ _ _ (by simp [hL])]
  congr 1
  have : before.dropWhile (fun l => !reTest l) = [] := by
    rw [List.dropWhile_eq_nil_iff]
    intro l hl
    simp [hb l hl]
  rw [this]
  rfl

theorem marker_recogniser_witness :
    (∀ line : Line, reTest line = true ↔
      ∃ pre ws post, line = pre ++ '#' :: (ws ++ "npmignore".toList ++ post) ∧
        ws.all isSpace = true) ∧
    extract (.str "x\nfoo #  npmignore bar\ny".toList) false
      = .ok ("foo #  npmignore bar".toList :: ["y".toList]) :=
  marker_recogniser "x\nfoo #  npmignore bar\ny".toList ["x".toList]
    "foo #  npmignore bar".toList ["y".toList]
    (by set_option maxRecDepth 100000 in decide)
    (by set_option maxRecDepth 100000 in decide)
    (by set_option maxRecDepth 100000 in decide)

/-- C17 (as stated, refuted): `a b export-ignore` gives the entry `a b`, a
segment with whitespace, where the claim gives nothing; the line
`# Rules from:` with nothing after it gives nothing, where the claim gives the
line. -/
theorem parseGitAttributes_counterexample :
    parseGitAttributes "a b export-ignore".toList = ["a b".toList] ∧
    parseGitAttributes "# Rules from:".toList = [] ∧
    isSpace ' ' = true := by
  set_option maxRecDepth 100000 in decide

/-- C17 (amended): `parseGitAttributes` returns, in input order and without
deduplication, the entries of the lines of the split text. A line of the form
whitespace or none, a non-empty segment without line terminator (it may hold
whitespace), whitespace, `export-ignore`, whitespace or none, gives one entry:
the segment of the reading of the line with the longest leading whitespace and,
for it, the shortest segment; when a segment holds no whitespace the entry is
that segment. A line of no such form gives the line itself when it is
`# Rules from:` followed by at least one character and no line terminator, and
nothing otherwise. -/
theorem parseGitAttributes_behaviour (str : Str) (line : Line) :
    parseGitAttributes str = (split str).flatMap parseGitAttributesLine ∧
    (∀ ws1 p ws2 ws3, ExportIgnoreForm line ws1 p ws2 ws3 →
      p.all (fun c => !isSpace c) = true → parseGitAttributesLine line = [p]) ∧
    ((∃ ws1 p ws2 ws3, ExportIgnoreForm line ws1 p ws2 ws3) →
      ∃ ws1 g ws2 ws3, ExportIgnoreForm line ws1 g ws2 ws3 ∧
        parseGitAttributesLine line = [g] ∧
        ∀ v1 p v2 v3, ExportIgnoreForm line v1 p v2 v3 →
          v1.length < ws1.length ∨ (v1.length = ws1.length ∧ g.length ≤ p.length)) ∧
    ((¬ ∃ ws1 p ws2 ws3, ExportIgnoreForm line ws1 p ws2 ws3) →
      (∃ r, RulesCommentForm line r) → parseGitAttributesLine line = [line]) ∧
    ((¬ ∃ ws1 p ws2 ws3, ExportIgnoreForm line ws1 p ws2 ws3) →
      (¬ ∃ r, RulesCommentForm line r) → parseGitAttributesLine line = []) ∧
    parseGitAttributes "path export-ignore".toList = ["path".toList] := by
  have hnone : (¬ ∃ ws1 p ws2 ws3, ExportIgnoreForm line ws1 p ws2 ws3) →
      rIgnore line = none := by
    intro hno
    cases hr : rIgnore line with
    | none => rfl
    | some g =>
      obtain ⟨ws1, ws2, ws3, hf⟩ := rIgnore_sound line g hr
      exact absurd ⟨ws1, g, ws2, ws3, hf⟩ hno
  refine ⟨rfl, ?_, ?_, ?_, ?_, by set_option maxRecDepth 100000 in decide⟩
  · intro ws1 p ws2 ws3 hf hp
    simp [parseGitAttributesLine, rIgnore_exact line ws1 p ws2 ws3 hf hp]
  · rintro ⟨ws1, p, ws2, ws3, hf⟩
    have hsome := rIgnore_complete line ws1 p ws2 ws3 hf
    cases hr : rIgnore line with
    | none => rw [hr] at hsome; exact absurd hsome (by decide)
    | some g =>
      obtain ⟨v1, v2, v3, hg, hsel⟩ := rIgnore_selects line g hr
      exact ⟨v1, g, v2, v3, hg, by simp [parseGitAttributesLine, hr], hsel⟩
  · intro hno hr
    simp [parseGitAttributesLine, hnone hno, (rComments_iff line).2 hr]
  · intro hno hr
    have : rComments line = false := by
      cases h : rComments line with
      | false => rfl
      | true => exact absurd ((rComments_iff line).1 h) hr
    simp [parseGitAttributesLine, hnone hno, this]

/-- C18: `format(G, P)` is `G` joined by newlines, two newlines, the two-line
banner, one newline and `P` joined by newlines; an empty sequence contributes
the empty string, the separators and the banner are still there. -/
theorem format_shape (G P : List Line) :
    format (.lines G) (.lines P)
      = joinNewline G ++ ['\n', '\n'] ++ (commentLine1 ++ ['\n'] ++ commentLine2) ++ ['\n']
          ++ joinNewline P ∧
    joinNewline [] = [] ∧
    format (.lines []) (.lines [])
      = ['\n', '\n'] ++ (commentLine1 ++ ['\n'] ++ commentLine2) ++ ['\n'] := by
  refine ⟨?_, rfl, ?_⟩
  · rw [format_eq]
    simp [zoneText, comment]
  · rw [format_eq]
    simp [zoneText, comment, joinNewline]

/-- C19: the generated zone is the lines of `gitSource` without the lines that
`unignore` removes, whatever `npmText`, `keepdest` and `ignore` are. -/
theorem generated_zone_independent (npm1 npm2 : NpmArg) (g : Str) (o1 o2 : Option Options)
    (hu : (o1.getD {}).unignore = (o2.getD {}).unignore) :
    ∃ G P1 P2, zones npm1 (.str g) o1 = .ok (.lines G, P1) ∧
      zones npm2 (.str g) o2 = .ok (.lines G, P2) ∧
      G = (split g).filter (fun x => !(unignoreLines (o1.getD {})).contains x) := by
  have h1 := zones_str npm1 g o1
  have h2 := zones_str npm2 g o2
  have hul : unignoreLines (o2.getD {}) = unignoreLines (o1.getD {}) := by
    simp [unignoreLines, hu]
  rw [hul] at h2
  exact ⟨_, _, _, h1, h2, rfl⟩

theorem generated_zone_independent_witness :
    ∃ G P1 P2, zones (.str "a".toList) (.str "x\ny".toList) none = .ok (.lines G, P1) ∧
      zones .null (.str "x\ny".toList)
        (some { ignore := some (.line "c".toList), keepdest := true }) = .ok (.lines G, P2) ∧
      G = (split "x\ny".toList).filter
        (fun x => !(unignoreLines ((none : Option Options).getD {})).contains x) :=
  generated_zone_independent (.str "a".toList) .null "x\ny".toList none
    (some { ignore := some (.line "c".toList), keepdest := true }) rfl

/-- C20 (as stated, refuted): the generated zone of `merge('', 'a\na')` holds
the line `a` twice. -/
theorem generated_zone_unique_counterexample :
    zones (.str []) (.str "a\na".toList) none = .ok (.lines ["a".toList, "a".toList], []) ∧
    ¬ ["a".toList, "a".toList].Nodup := by
  decide

/-- C20 (amended): the generated zone is a subsequence of the lines of
`gitSource`, so its lines keep the order they have there; it is not
deduplicated: when `unignore` is not applied it is exactly the lines of
`gitSource`, repetitions included. -/
theorem generated_zone_keeps_lines (npm : NpmArg) (g : Str) (options : Option Options) :
    ∃ G P, zones npm (.str g) options = .ok (.lines G, P) ∧
      G.Sublist (split g) ∧
      (truthy (options.getD {}).unignore = false → G = split g) := by
  refine ⟨_, _, zones_str npm g options, List.filter_sublist _, ?_⟩
  intro hl
  simp [unignoreLines, hl]

end Npmignore
